import Mathlib

/-!
Verification of the process/memory/filesystem control plane of a small
xv6-style RISC-V kernel written in Rust, against its natural-language
specification.  Each component is shallowly embedded: the Rust data
structures become Lean structures, machine integers become `Nat`/`Int`,
pointers become `Option Nat` handles, fallible or diverging code returns
`Option` or an explicit outcome type.  Spin-lock acquisition/release is
modelled as an atomic step of the sequential abstraction wherever a
component merely uses a lock for mutual exclusion; the spin-lock
implementation itself (src/spinlock.rs) is modelled operationally for the
claim that is about it.
-/

set_option maxRecDepth 10000

namespace RustOS

/-! ### Spin lock (src/spinlock.rs) -/

/-- The fields of `SpinLock` that `acquire`/`release`/`holding` read and
write: `locked` (a `uint`) and `cpu` (a pointer to the owning CPU, `none`
for null). -/
structure SpinLock where
  locked : Nat
  cpu : Option Nat
deriving DecidableEq, Repr

/-- `compare_exchange(current, expected, new)` of `core::sync::atomic`:
succeeds and stores `newv` iff the current value equals `expected`. -/
def compareExchange (current expected newv : Nat) : Nat × Bool :=
  if current = expected then (newv, true) else (current, false)

/-- One iteration of the busy-wait loop in `SpinLock::acquire`
(src/spinlock.rs lines 49-60): the CAS is performed on a freshly created
`AtomicUsize::new(1)` with expected value `0` and new value `1`.  Note the
atomic operated on is a new local value each iteration, not `self.locked`. -/
def acquireCasOk : Bool := (compareExchange 1 0 1).2

/-- `SpinLock::holding` (src/spinlock.rs lines 102-104): the lock word is
non-zero and the recorded CPU is the current core. -/
def SpinLock.holding (l : SpinLock) (core : Nat) : Bool :=
  l.locked != 0 && l.cpu == some core

/-- Possible outcomes of `SpinLock::acquire`: the re-entry check fired
(kernel halt), the busy-wait loop is still spinning after the given number
of iterations, or the loop was won and the lock state updated. -/
inductive AcqOutcome where
  | panicked
  | spinning
  | acquired (l : SpinLock)
deriving DecidableEq, Repr

/-- The busy-wait loop of `SpinLock::acquire`, with fuel bounding the
number of loop iterations observed.  On CAS success the code records the
current core in `self.cpu` (line 68); `self.locked` is never assigned. -/
def acquireSpin (l : SpinLock) (core : Nat) : Nat → AcqOutcome
  | 0 => .spinning
  | fuel + 1 =>
    if acquireCasOk then .acquired { l with cpu := some core }
    else acquireSpin l core fuel

/-- `SpinLock::acquire` (src/spinlock.rs lines 39-69): `push_off`, then the
re-entrancy check via `holding`, then the CAS spin loop. -/
def SpinLock.acquire (l : SpinLock) (core : Nat) (fuel : Nat) : AcqOutcome :=
  if l.holding core then .panicked else acquireSpin l core fuel

/-! ### Process states and the scheduler (src/proc.rs) -/

/-- `ProcState` (src/proc.rs lines 88-95). -/
inductive ProcState where
  | UNUSED
  | USED
  | SLEEPING
  | RUNNABLE
  | RUNNING
  | ZOMBIE
deriving DecidableEq, Repr

/-- The scheduler loop's action on one process-table entry while holding
its lock (src/proc.rs lines 606-620): for a `RUNNABLE` process the state
assigned immediately before `swtch` is `ProcState::RUNNABLE` (line 611),
and a context switch is performed; any other state is left alone and no
switch happens.  Returns the state the entry holds at the moment of
`swtch` together with whether a switch was performed. -/
def schedulerDispatch (st : ProcState) : ProcState × Bool :=
  if st = .RUNNABLE then (.RUNNABLE, true) else (st, false)

/-- The context seen by `sched()` on entry: whether the caller holds its
own PCB lock, the process state it set, the core's `push_off` nesting
depth `noff`, and whether interrupts are hardware-enabled. -/
structure SchedCtx where
  holdingLock : Bool
  state : ProcState
  noff : Int
  intrOn : Bool
deriving DecidableEq, Repr

/-- The four fatal checks of `sched()`, in source order. -/
inductive SchedPanic where
  | plock
  | locks
  | running
  | interruptible
deriving DecidableEq, Repr

/-- The precondition checks of `sched()` (src/proc.rs lines 642-653):
panic "sched p->lock" unless the caller holds its PCB lock, panic
"sched locks" unless `noff == 1`, panic "sched running" if the state is
`RUNNABLE` (line 648), panic "sched interruptible" if interrupts are
enabled.  `none` means all checks passed and the context switch is
reached. -/
def schedCheck (c : SchedCtx) : Option SchedPanic :=
  if ¬ c.holdingLock then some .plock
  else if c.noff ≠ 1 then some .locks
  else if c.state = .RUNNABLE then some .running
  else if c.intrOn then some .interruptible
  else none

/-! ### allocproc / fork (src/proc.rs) -/

/-- The fields of a process-table slot that `allocproc`/`freeproc`
touch.  `trapframe` and `pagetable` are pointers, `none` for null.
The saved context set at the end of `goto_found` is irrelevant to the
claims and omitted. -/
structure APSlot where
  state : ProcState
  pid : Nat
  trapframe : Option Unit
  pagetable : Option Unit
deriving DecidableEq, Repr

/-- `freeproc` (src/proc.rs lines 290-309): release the trapframe,
null the pagetable, clear the identity fields and mark `UNUSED`. -/
def freeproc (_p : APSlot) : APSlot :=
  { state := .UNUSED, pid := 0, trapframe := none, pagetable := none }

/-- The `goto_found` inner function of `allocproc` (src/proc.rs lines
255-284): assign a fresh pid, mark `USED`, allocate a trapframe page
(`kallocOk` says whether `kalloc` succeeds); if the trapframe is null,
free and return null.  The call that would build the user page table is
commented out in the source (line 269), so `pagetable` keeps its value
and the following null check (lines 270-274) is decided by it.  Returns
the updated slot and `true` iff a non-null proc pointer is returned. -/
def goto_found (kallocOk : Bool) (newpid : Nat) (p : APSlot) : APSlot × Bool :=
  let p1 : APSlot := { p with pid := newpid, state := .USED }
  let p2 : APSlot := { p1 with trapframe := if kallocOk then some () else none }
  if p2.trapframe.isNone then (freeproc p2, false)
  else if p2.pagetable.isNone then (freeproc p2, false)
  else (p2, true)

/-- The scan loop of `allocproc` (src/proc.rs lines 244-253): for each
slot, if it is `UNUSED` the code evaluates `goto_found(p)` and discards
the returned pointer, continuing the scan; after the loop it returns
null (`return ptr::null_mut()`, line 253).  The returned `Option Nat` is
the pid of the slot a non-null return would carry — the loop structure
never produces one. -/
def allocprocLoop (kallocOk : Bool) : Nat → List APSlot → List APSlot × Option Nat
  | _, [] => ([], none)
  | nextpid, p :: rest =>
    if p.state = .UNUSED then
      let r := goto_found kallocOk nextpid p
      let rec' := allocprocLoop kallocOk (nextpid + 1) rest
      (r.1 :: rec'.1, rec'.2)
    else
      let rec' := allocprocLoop kallocOk nextpid rest
      (p :: rec'.1, rec'.2)

/-- `allocproc` (src/proc.rs lines 241-254). -/
def allocproc (kallocOk : Bool) (nextpid : Nat) (procs : List APSlot) :
    List APSlot × Option Nat :=
  allocprocLoop kallocOk nextpid procs

/-- `fork` (src/proc.rs lines 425-478), up to its return value: if
`allocproc` returns null, return `-1`; otherwise the remaining body
(address-space copy, trap-frame copy with `a0 := 0`, file duplication)
runs and the child's pid is returned. -/
def fork (kallocOk : Bool) (nextpid : Nat) (procs : List APSlot) : Int :=
  match (allocproc kallocOk nextpid procs).2 with
  | none => -1
  | some pid => (pid : Int)

/-! ### Write-ahead log (src/log.rs, src/param.rs) -/

/-- `MAXOPBLOCKS` (src/param.rs line 16). -/
def MAXOPBLOCKS : Nat := 10

/-- `LOGSIZE` (src/param.rs line 17). -/
def LOGSIZE : Nat := MAXOPBLOCKS * 3

/-- The `Log` state (src/log.rs lines 22-30) together with its in-memory
`LogHeader`: `n` is `lh.n` and `blk` the `lh.block` array (a total
function; only indices below `n` are meaningful).  The `i32` counters
`outstanding` and `committing` are `Int`. -/
structure Log where
  start : Nat
  size : Nat
  outstanding : Int
  committing : Int
  n : Nat
  blk : Nat → Nat

/-- The current transaction's block list: the first `n` entries of the
header's block array. -/
def logList (lg : Log) : List Nat := (List.range lg.n).map lg.blk

/-- One pass of the `begin_op` loop with the log lock held (src/log.rs
lines 126-140): sleep (`none`) while a commit is in progress, or while
`lh.n + (outstanding + 1) * MAXOPBLOCKS > LOGSIZE`; otherwise increment
`outstanding` and return the updated state. -/
def beginOpCheck (lg : Log) : Option Log :=
  if lg.committing ≠ 0 then none
  else if (lg.n : Int) + (lg.outstanding + 1) * (MAXOPBLOCKS : Int) > (LOGSIZE : Int) then none
  else some { lg with outstanding := lg.outstanding + 1 }

/-- How a `begin_op` call ends: `admitted` is the normal return with the
updated log state (outstanding incremented, lock released);
`fatalReacquire` is the re-entrant `self.lock.acquire()` at the top of
the loop iteration following a sleep — by the spin lock's own contract
(`if self.holding() { panic!("acquire") }`, src/spinlock.rs lines 42-44)
a fatal error, and as the acquire spin loop is actually coded
(src/spinlock.rs lines 49-60) an infinite spin; either way the call
never proceeds past it. -/
inductive BeginOpRes where
  | admitted (lg : Log)
  | fatalReacquire

/-- The `begin_op` loop (src/log.rs lines 126-140) with the log spin
lock's state tracked: `held` records whether the calling process already
holds `log.lock` when the iteration starts.  Every iteration begins with
`self.lock.acquire()` (line 128).  On the sleep paths (lines 131 and
133) `sleep` releases the lock, the sleeper is woken in whatever log
state other processes have produced — the environment step `wake` — and
`sleep` then *reacquires the lock before returning* (src/proc.rs lines
717-718), so the next iteration's `acquire` runs with the lock already
held by the caller and is fatal (`fatalReacquire`).  `none` means the
caller is still blocked after `fuel` passes. -/
def begin_op (wake : Nat → Log) : Nat → Bool → Log → Option BeginOpRes
  | 0, _, _ => none
  | fuel + 1, held, lg =>
    if held then some .fatalReacquire
    else
      match beginOpCheck lg with
      | some lg' => some (.admitted lg')
      | none => begin_op wake fuel true (wake fuel)

/-- `Log::write` (src/log.rs lines 183-208) acting on the log state and
on the written buffer's reference count `refcnt` (`bpin`, src/bio.rs
lines 178-182, increments it).  `none` models the two panics ("too big a
transaction", "log_write outside of trans").  The scan loop (lines
193-199) finds the first logged entry equal to `blockno`, i.e. the index
of `blockno` in the block list, or `lh.n` when absent; line 201 stores
`blockno` at that index, and lines 202-205 pin the buffer and grow the
list exactly when the scan fell off the end. -/
def Log.write (lg : Log) (bno : Nat) (refcnt : Nat) : Option (Log × Nat) :=
  if (lg.n : Int) ≥ (LOGSIZE : Int) ∨ (lg.n : Int) ≥ (lg.size : Int) - 1 then none
  else if lg.outstanding < 1 then none
  else
    let i := (logList lg).indexOf bno
    let blk' := fun j => if j = i then bno else lg.blk j
    if i = lg.n then some ({ lg with blk := blk', n := lg.n + 1 }, refcnt + 1)
    else some ({ lg with blk := blk' }, refcnt)

/-- Concrete log state used by the `commit` and `begin_op` witnesses: one
pending block (number 3), the log region starting at block 10, and a
commit flagged as in progress (`committing = 1`). -/
def lgC6 : Log := ⟨10, 5, 0, 1, 1, fun t => if t = 0 then 3 else 0⟩

/-! ### Buffer cache (src/bio.rs, src/sleeplock.rs) -/

/-- The fields of a `Buffer` (src/virtio.rs lines 118-128) read or
written by `bget`/`bread`/`bwrite`: identity, validity flag, reference
count, and the state of the buffer's sleep-lock (`Sleeplock.locked` and
`Sleeplock.pid`, src/sleeplock.rs lines 9-14).  The sleep-lock's
internal spin lock `lk` only orders accesses and is absorbed by the
sequential abstraction; crucially, acquiring `lk` does not change
`locked` or `pid`. -/
structure Buf where
  dev : Nat
  blockno : Nat
  valid : Bool
  refcnt : Nat
  slLocked : Nat
  slPid : Nat
deriving DecidableEq, Repr

/-- `Sleeplock::holding` (src/sleeplock.rs lines 60-65) for a buffer's
sleep-lock: the lock word is set and the recorded pid is the calling
process. -/
def sleeplockHolding (b : Buf) (pid : Nat) : Bool :=
  b.slLocked != 0 && b.slPid == pid

/-- `bget` (src/bio.rs lines 98-129) over the cache contents listed in
LRU order (head of the list = `head.next`, most recently used).  First
scan: a cached buffer with matching `(dev, blockno)` gets its reference
count incremented and the code then acquires `(*b).lock.lk` — the
sleep-lock's internal spin lock (line 107) — leaving the sleep-lock's
`locked`/`pid` fields untouched.  Second scan, from the tail: the first
zero-reference buffer is repurposed (identity overwritten, `valid`
cleared, `refcnt := 1`) and again only `lock.lk` is acquired (line 123).
`none` models the "bget: no buffers" panic.  Returns the updated cache
and the index of the returned buffer. -/
def bget (bufs : List Buf) (dev blockno : Nat) : Option (List Buf × Nat) :=
  match bufs.findIdx? (fun b => b.dev == dev && b.blockno == blockno) with
  | some j =>
    match bufs[j]? with
    | some b => some (bufs.set j { b with refcnt := b.refcnt + 1 }, j)
    | none => none
  | none =>
    match bufs.reverse.findIdx? (fun b => b.refcnt == 0) with
    | some r =>
      match bufs.reverse[r]? with
      | some b =>
        some (bufs.set (bufs.length - 1 - r)
          { b with dev := dev, blockno := blockno, valid := false, refcnt := 1 },
          bufs.length - 1 - r)
      | none => none
    | none => none

/-- `bread` (src/bio.rs lines 132-140): `bget`, then if the buffer is
not valid, read it synchronously from the disk and set `valid`. -/
def bread (bufs : List Buf) (dev blockno : Nat) : Option (List Buf × Nat) :=
  match bget bufs dev blockno with
  | none => none
  | some (bs, i) =>
    match bs[i]? with
    | none => none
    | some b => if b.valid then some (bs, i) else some (bs.set i { b with valid := true }, i)

/-- `bwrite` (src/bio.rs lines 143-149): panic ("bwrite", modelled as
`none`) unless the calling process holds the buffer's sleep-lock;
otherwise issue the synchronous disk write (`some ()`). -/
def bwrite (bs : List Buf) (i pid : Nat) : Option Unit :=
  match bs[i]? with
  | none => none
  | some b => if sleeplockHolding b pid then some () else none

/-- How far `commit` (src/log.rs lines 172-180) gets, up to its first
disk write: `noWrites` — no blocks pending, no disk writes at all;
`panicNoBuffers` — a `bread` inside `write_log` hit `bget`'s
"bget: no buffers" panic (src/bio.rs line 127); `panicBwrite` — the
first `bwrite` failed its holding check and panicked ("bwrite",
src/bio.rs line 144); `wrote` — the holding check passed and the first
log write was issued (the trace the claim describes would begin). -/
inductive CommitRes where
  | noWrites
  | panicNoBuffers
  | panicBwrite
  | wrote
deriving DecidableEq, Repr

/-- `commit` (src/log.rs lines 172-180) driven through the real bio
layer, followed to its first disk write.  With pending blocks it calls
`write_log` (lines 114-123), whose first iteration (`tail = 0`) runs
`to = bread(dev, start + 0 + 1)`, `from = bread(dev, lh.block[0])`,
copies `from`'s data into `to` (which touches no sleep-lock field), and
calls `bwrite(to)` — `bwrite`'s holding check inspects the sleep-lock of
the buffer `to` at index `i1` of the cache.  `pid` is the committing
process. -/
def commitFirstWrite (lg : Log) (bufs : List Buf) (dev pid : Nat) : CommitRes :=
  if 0 < lg.n then
    match bread bufs dev (lg.start + 1) with
    | none => .panicNoBuffers
    | some (bs1, i1) =>
      match bread bs1 dev (lg.blk 0) with
      | none => .panicNoBuffers
      | some (bs2, _) =>
        match bwrite bs2 i1 pid with
        | none => .panicBwrite
        | some _ => .wrote
  else .noWrites

/-- The freshly initialized two-buffer cache (`binit` leaves every
buffer's identity zeroed, `refcnt = 0`, and both sleep-lock fields 0). -/
def bufsC6 : List Buf := [⟨0, 0, false, 0, 0, 0⟩, ⟨0, 0, false, 0, 0, 0⟩]

/-! ### Page tables (src/vm.rs, src/riscv.rs) -/

/-- `PGSIZE` (src/riscv.rs line 319). -/
def PGSIZE : Nat := 4096

/-- `PTE_V` (src/riscv.rs line 323). -/
def PTE_V : Nat := 1

/-- `PTE_R` (src/riscv.rs line 324). -/
def PTE_R : Nat := 2

/-- `PTE_W` (src/riscv.rs line 325). -/
def PTE_W : Nat := 4

/-- `PTE_X` (src/riscv.rs line 326). -/
def PTE_X : Nat := 8

/-- `PTE_U` (src/riscv.rs line 327). -/
def PTE_U : Nat := 16

/-- `MAXVA` (src/riscv.rs line 336). -/
def MAXVA : Nat := 2 ^ (9 + 9 + 9 + 12 - 1)

/-- `pa2pte` (src/riscv.rs lines 351-353). -/
def pa2pte (pa : Nat) : Nat := (pa >>> 12) <<< 10

/-- `pte2pa` (src/riscv.rs lines 356-358). -/
def pte2pa (pte : Nat) : Nat := (pte >>> 10) <<< 12

/-- `pte_flags` (src/riscv.rs lines 361-363). -/
def pte_flags (pte : Nat) : Nat := pte &&& 0x3FF

/-- The per-level 9-bit index of `walk` (src/vm.rs lines 108-109). -/
def px (level va : Nat) : Nat := (va >>> (12 + 9 * level)) &&& 0x1FF

/-- Physical memory as the page-table walker sees it: `pages p i` is the
value of PTE slot `i` of physical page number `p` (the source indexes
`pagetable.add(px(level))`; a page number stands for the page-aligned
address `p * PGSIZE`), and `free` is the page allocator's free list
(src/kalloc.rs), from which `kalloc` pops the head. -/
structure Mem where
  pages : Nat → Nat → Nat
  free : List Nat

/-- `kalloc`: pop a page off the free list, or return null (`none`). -/
def kalloc (m : Mem) : Option (Nat × Mem) :=
  match m.free with
  | [] => none
  | p :: rest => some (p, { m with free := rest })

/-- `ptr::write_bytes(page, 0, PGSIZE)` (src/vm.rs line 127): zero a
freshly allocated page-table page. -/
def zeroPage (m : Mem) (p : Nat) : Mem :=
  { m with pages := fun q i => if q = p then 0 else m.pages q i }

/-- Store value `v` into PTE slot `i` of page `p` (`*pte = ...`). -/
def writePTE (m : Mem) (p i v : Nat) : Mem :=
  { m with pages := fun q j => if q = p ∧ j = i then v else m.pages q j }

/-- One level of `walk`'s descent (src/vm.rs lines 114-131): follow a
valid entry (`pagetable = ((*pte) >> 10) << 12`, child page number
`pte >>> 10`); otherwise, when allocating, obtain a fresh zeroed page
and install `((new_page >> 12) << 10) | PTE_V`; otherwise return null. -/
def walkStep (m : Mem) (pt idx : Nat) (alloc : Bool) : Option (Nat × Mem) :=
  if m.pages pt idx &&& PTE_V ≠ 0 then some (m.pages pt idx >>> 10, m)
  else if ¬ alloc then none
  else
    match kalloc m with
    | none => none
    | some (np, m1) =>
      some (np, writePTE (zeroPage m1 np) pt idx ((np <<< 10) ||| PTE_V))

/-- Outcome of `walk` (src/vm.rs lines 103-134): the `va >= MAXVA`
panic, a null return, or a pointer to the level-0 PTE slot (page number
and slot index) together with the resulting memory. -/
inductive WalkRes where
  | panicked
  | null (m : Mem)
  | ok (p idx : Nat) (m : Mem)

/-- `walk` (src/vm.rs lines 103-134): descend levels 2 then 1, then
return the address of the level-0 entry. -/
def walk (m : Mem) (root va : Nat) (alloc : Bool) : WalkRes :=
  if va ≥ MAXVA then .panicked
  else
    match walkStep m root (px 2 va) alloc with
    | none => .null m
    | some (p1, m1) =>
      match walkStep m1 p1 (px 1 va) alloc with
      | none => .null m1
      | some (p0, m2) => .ok p0 (px 0 va) m2

/-- `walkaddr` (src/vm.rs lines 139-155): 0 for `va >= MAXVA`, a null
walk, or an invalid or non-user PTE; otherwise `pte2pa pte`. -/
def walkaddr (m : Mem) (root va : Nat) : Nat :=
  if va ≥ MAXVA then 0
  else
    match walk m root va false with
    | .ok p idx m' =>
      if m'.pages p idx &&& PTE_V = 0 then 0
      else if m'.pages p idx &&& PTE_U = 0 then 0
      else pte2pa (m'.pages p idx)
    | _ => 0

/-- Outcome of `mappages`: a panic, the `-1` error return, or the `0`
success return, with the resulting memory. -/
inductive MapRes where
  | panicked
  | err (m : Mem)
  | ok (m : Mem)

/-- The mapping loop of `mappages` (src/vm.rs lines 188-202), counting
the remaining pages: walk with allocation, panic "mappages: remap" on an
already-valid leaf entry, else install `pa2pte(pa) | perm | PTE_V` and
advance `a` and `pa` by one page. -/
def mapLoop (root perm : Nat) : Nat → Nat → Nat → Mem → MapRes
  | 0, _, _, m => .ok m
  | n + 1, a, pa, m =>
    match walk m root a true with
    | .panicked => .panicked
    | .null m' => .err m'
    | .ok p idx m' =>
      if m'.pages p idx &&& PTE_V ≠ 0 then .panicked
      else
        mapLoop root perm n (a + PGSIZE) (pa + PGSIZE)
          (writePTE m' p idx (pa2pte pa ||| perm ||| PTE_V))

/-- `mappages` (src/vm.rs lines 171-204): the alignment and size panics,
then the loop from `va` to `last = va + size - PGSIZE`, i.e.
`size / PGSIZE` iterations. -/
def mappages (m : Mem) (root va size pa perm : Nat) : MapRes :=
  if va % PGSIZE ≠ 0 then .panicked
  else if size % PGSIZE ≠ 0 then .panicked
  else if size = 0 then .panicked
  else mapLoop root perm (size / PGSIZE) va pa m

/-- A valid entry's child page number — one level of `walk` reading
without allocation. -/
def child (m : Mem) (p i : Nat) : Option Nat :=
  if m.pages p i &&& PTE_V ≠ 0 then some (m.pages p i >>> 10) else none

/-- The location (page number, slot index) of the level-0 PTE slot for
`va`, by pure reads — the path `walk` follows. -/
def resolve (m : Mem) (root va : Nat) : Option (Nat × Nat) :=
  match child m root (px 2 va) with
  | none => none
  | some p1 =>
    match child m p1 (px 1 va) with
    | none => none
    | some p0 => some (p0, px 0 va)

/-- The valid leaf PTE mapped at `va`, if any. -/
def leafPTE (m : Mem) (root va : Nat) : Option Nat :=
  match resolve m root va with
  | none => none
  | some (p, i) =>
    if m.pages p i &&& PTE_V ≠ 0 then some (m.pages p i) else none

/-- `q` is a level-1 table page of the tree rooted at `root`: some valid
root entry points to it. -/
def isT1 (m : Mem) (root q : Nat) : Prop :=
  ∃ i, i < 512 ∧ child m root i = some q

/-- `q` is a level-0 (leaf-holding) table page of the tree. -/
def isT0 (m : Mem) (root q : Nat) : Prop :=
  ∃ p, isT1 m root p ∧ ∃ j, j < 512 ∧ child m p j = some q

/-- Well-formedness of a page-table tree: the root, the level-1 pages
and the level-0 pages are pairwise distinct (the structure is a tree,
not a DAG — true of tables built by `walk` from fresh zeroed pages), and
the allocator's free pages are mutually distinct and distinct from every
table page (`kalloc` hands out each free page once). -/
structure WF (m : Mem) (root : Nat) : Prop where
  rootNotT1 : ¬ isT1 m root root
  rootNotT0 : ¬ isT0 m root root
  t1NotT0 : ∀ q, isT1 m root q → ¬ isT0 m root q
  inj1 : ∀ i j q, i < 512 → j < 512 →
    child m root i = some q → child m root j = some q → i = j
  inj0 : ∀ p p' j j' q, isT1 m root p → isT1 m root p' → j < 512 → j' < 512 →
    child m p j = some q → child m p' j' = some q → p = p' ∧ j = j'
  freeNodup : m.free.Nodup
  freeFresh : ∀ q ∈ m.free, q ≠ root ∧ ¬ isT1 m root q ∧ ¬ isT0 m root q

/-- The all-zero page-table memory used for concrete checks of C9
(root page 0, free pages 1 and 2). -/
def memC9 : Mem := ⟨fun _ _ => 0, [1, 2]⟩

/-- The memory produced by the successful counterexample `mappages` call
(perm without `PTE_U`). -/
def mF9n : Mem :=
  match mappages memC9 0 0 4096 8192 PTE_R with
  | .ok m => m
  | _ => memC9

/-- The memory produced by the successful witness `mappages` call
(perm `PTE_R ||| PTE_U` = 18). -/
def mF9w : Mem :=
  match mappages memC9 0 0 4096 8192 18 with
  | .ok m => m
  | _ => memC9

/-! ### copyinstr (src/vm.rs lines 460-509) -/

/-- `pgrounddown` (src/riscv.rs lines 345-347): `addr & !(PGSIZE - 1)`,
i.e. clear the low 12 bits. -/
def pgrounddown (addr : Nat) : Nat := addr / PGSIZE * PGSIZE

/-- The inner byte loop of `copyinstr` (src/vm.rs lines 486-499):
scan up to `n` bytes of the current page starting at physical address
`p` in the physical byte memory `pmem`; copy each byte to `dst` until a
NUL, which is copied and sets `got_null`.  Returns the bytes written,
the `got_null` flag, and the number of `max`-decrements performed (one
per non-NUL byte copied). -/
def scanPage (pmem : Nat → Nat) : Nat → Nat → List Nat × Bool × Nat
  | _, 0 => ([], false, 0)
  | p, n + 1 =>
    if pmem p = 0 then ([0], true, 0)
    else
      match scanPage pmem (p + 1) n with
      | (bs, g, c) => (pmem p :: bs, g, c + 1)

/-- The outer loop of `copyinstr` (src/vm.rs lines 472-502): per page,
translate `va0 = pgrounddown(srcva)` through `walkaddr` (0 means
unmapped or non-user: return -1, modelled `none`), scan
`n = min(PGSIZE - (srcva - va0), max)` bytes, and continue at
`va0 + PGSIZE` with `max` reduced.  `fuel` bounds the number of outer
iterations; each iteration consumes at least one byte of `max`, so
`max` itself is sufficient fuel.  `some bytes` is the 0 return with the
bytes written through `dst`; `none` is the -1 return. -/
def ciGo (m : Mem) (root : Nat) (pmem : Nat → Nat) :
    Nat → Nat → Nat → Option (List Nat)
  | 0, _, _ => none
  | fuel + 1, srcva, mx =>
    if mx = 0 then none
    else
      if walkaddr m root (pgrounddown srcva) = 0 then none
      else
        match scanPage pmem
          (walkaddr m root (pgrounddown srcva) + (srcva - pgrounddown srcva))
          (min (PGSIZE - (srcva - pgrounddown srcva)) mx) with
        | (bs, g, c) =>
          if g then some bs
          else
            match ciGo m root pmem fuel (pgrounddown srcva + PGSIZE) (mx - c) with
            | some rest => some (bs ++ rest)
            | none => none

/-- `copyinstr` (src/vm.rs lines 464-509).  The embedding is total: the
only outcomes are the 0 return (with the copied bytes) and the -1
return (`none`); there is no panic outcome. -/
def copyinstr (m : Mem) (root : Nat) (pmem : Nat → Nat) (srcva mx : Nat) :
    Option (List Nat) :=
  ciGo m root pmem mx srcva mx

/-- The byte of user memory at virtual address `va`: the physical byte
the code would read through `walkaddr`, or `none` when `walkaddr`
reports the page unmapped, invalid or non-user (returns 0). -/
def userByte (m : Mem) (root : Nat) (pmem : Nat → Nat) (va : Nat) : Option Nat :=
  if walkaddr m root (pgrounddown va) = 0 then none
  else some (pmem (walkaddr m root (pgrounddown va) + (va - pgrounddown va)))

/-- The input/output specification of `copyinstr`, stated from
`userByte` (following the spec's words, for comparison with the
translated code): a NUL occurs at some offset `k` within the first
`max` bytes, every byte before it is mapped, user-accessible and
non-NUL, and `dst` receives exactly the bytes up to and including the
NUL. -/
def ciSpec (m : Mem) (root : Nat) (pmem : Nat → Nat) (srcva mx : Nat)
    (bs : List Nat) : Prop :=
  ∃ k, k < mx ∧
    (∀ j, j < k → ∃ b, userByte m root pmem (srcva + j) = some b ∧ b ≠ 0) ∧
    userByte m root pmem (srcva + k) = some 0 ∧
    bs = (List.range (k + 1)).map
      (fun j => (userByte m root pmem (srcva + j)).getD 0)

/-! ### THEOREMS -/

/-- C1: For every spin lock, `acquire()` is claimed to return only after
winning the lock via an atomic test-and-set on the lock's state,
recording the current core as owner so that `holding()` then returns
true.  The code instead CASes a freshly created `AtomicUsize::new(1)`
against expected value 0, which fails on every iteration, so `acquire`
on a free lock spins forever for any number of iterations; and since
`self.locked` is never written, even the state the loop would produce on
success fails `holding()`. -/
theorem spinlock_acquire_spins_forever (core fuel : Nat) :
    SpinLock.acquire ⟨0, none⟩ core fuel = .spinning ∧
    SpinLock.holding ⟨0, some core⟩ core = false := by
  constructor
  · have hcas : acquireCasOk = false := by decide
    have hnot : SpinLock.holding ⟨0, none⟩ core = false := by
      simp [SpinLock.holding]
    unfold SpinLock.acquire
    rw [hnot]
    simp only [Bool.false_eq_true, if_false]
    induction fuel with
    | zero => rfl
    | succ n ih => unfold acquireSpin; rw [hcas]; simpa using ih
  · simp [SpinLock.holding]

/-- C2: The claim says the scheduler sets a selected `RUNNABLE` process's
state to `RUNNING` before `swtch`.  The code (src/proc.rs line 611)
assigns `ProcState::RUNNABLE` instead, so the state at the moment of the
context switch is `RUNNABLE`, not `RUNNING`. -/
theorem scheduler_dispatch_leaves_runnable :
    schedulerDispatch .RUNNABLE = (.RUNNABLE, true) ∧
    (schedulerDispatch .RUNNABLE).1 ≠ .RUNNING := by
  constructor
  · rfl
  · decide

/-- C5: The claim says a caller holding its PCB lock, with any non-RUNNING
state set (for example `RUNNABLE` as `yield` does, or `SLEEPING` as
`sleep` does), `noff == 1` and interrupts off passes all four checks of
`sched()`.  The code's third check (src/proc.rs line 648) panics
"sched running" precisely when the state is `RUNNABLE`, so `yield`'s
call always panics, while a `SLEEPING` caller passes. -/
theorem sched_panics_on_runnable_caller :
    schedCheck ⟨true, .RUNNABLE, 1, false⟩ = some .running ∧
    schedCheck ⟨true, .SLEEPING, 1, false⟩ = none := by
  constructor <;> rfl

/-- C4: The claim says that with a free `UNUSED` slot and successful
memory allocation, `fork()` returns the child's pid (positive, not -1).
In the code `allocproc`'s scan discards the value of `goto_found` and
falls through to `return ptr::null_mut()` (and `goto_found` itself nulls
out the slot because the `proc_pagetable` call is commented out), so
`allocproc` returns null and `fork` returns -1 on every input — in
particular on a table of `UNUSED` slots with `kalloc` succeeding. -/
theorem fork_always_fails (kallocOk : Bool) (nextpid : Nat) (procs : List APSlot) :
    fork kallocOk nextpid procs = -1 := by
  unfold fork allocproc
  suffices h : (allocprocLoop kallocOk nextpid procs).2 = none by rw [h]
  induction procs generalizing nextpid with
  | nil => rfl
  | cons p rest ih =>
    unfold allocprocLoop
    by_cases hp : p.state = .UNUSED <;> simp [hp, ih]

/-- C7: the claim says `begin_op()` sleeps while a commit is in progress
or the worst-case bound would be exceeded, and re-checks the state after
being woken, returning only by incrementing `outstanding` in an
admissible state.  In the code, `self.lock.acquire()` sits at the top of
the loop body (src/log.rs line 128) and `sleep` reacquires that same
lock before returning (src/proc.rs lines 717-718), so the iteration
after any sleep re-acquires a lock the caller already holds — fatal by
the lock's holding-check contract, an infinite spin as coded — and the
woken caller never reaches the re-check.  `begin_op` admits only when
the very first check passes; a caller that must sleep once never
returns. -/
theorem begin_op_woken_never_rechecks (wake : Nat → Log) (lg : Log) (fuel : Nat) :
    (∀ lg', beginOpCheck lg = some lg' →
      begin_op wake (fuel + 1) false lg = some (.admitted lg')) ∧
    (beginOpCheck lg = none →
      begin_op wake (fuel + 2) false lg = some .fatalReacquire) := by
  constructor
  · intro lg' hc
    simp [begin_op, hc]
  · intro hc
    show begin_op wake (fuel + 1 + 1) false lg = some BeginOpRes.fatalReacquire
    simp [begin_op, hc]

/-- Witness for C7: with a commit flagged in progress, the first check
sends the caller to sleep, and the iteration after the wakeup dies at
the re-entrant `acquire` instead of re-checking. -/
theorem begin_op_woken_never_rechecks_witness :
    beginOpCheck lgC6 = none ∧
    begin_op (fun _ => lgC6) 2 false lgC6 = some BeginOpRes.fatalReacquire :=
  ⟨rfl, (begin_op_woken_never_rechecks (fun _ => lgC6) lgC6 0).2 rfl⟩

/-- C8: a successful `Log::write` of block `bno` leaves the transaction's
block list unchanged (same list, same buffer pin count) when `bno` is
already listed, and appends `bno` while pinning the buffer (reference
count incremented by one) exactly when it is new; consequently a list
with no duplicates stays duplicate-free, so each distinct block number
appears at most once across any sequence of writes. -/
theorem log_write_dedup_pin (lg : Log) (bno rc : Nat) (lg' : Log) (rc' : Nat)
    (hw : Log.write lg bno rc = some (lg', rc')) :
    (bno ∈ logList lg → logList lg' = logList lg ∧ rc' = rc) ∧
    (bno ∉ logList lg → logList lg' = logList lg ++ [bno] ∧ rc' = rc + 1) ∧
    ((logList lg).Nodup → (logList lg').Nodup) := by
  have hlen : (logList lg).length = lg.n := by simp [logList]
  unfold Log.write at hw
  split_ifs at hw with hbig hout
  by_cases hmem : bno ∈ logList lg
  · have hidx : (logList lg).indexOf bno < lg.n := by
      rw [← hlen]; exact List.indexOf_lt_length.mpr hmem
    have hne : ¬ ((logList lg).indexOf bno = lg.n) := by omega
    rw [if_neg hne] at hw
    simp only [Option.some.injEq, Prod.mk.injEq] at hw
    obtain ⟨hlg', hrc'⟩ := hw
    have hblk : lg.blk ((logList lg).indexOf bno) = bno := by
      have hlt : (logList lg).indexOf bno < (logList lg).length :=
        List.indexOf_lt_length.mpr hmem
      have h9 := List.getElem_indexOf (a := bno) (l := logList lg) hlt
      have h10 : (logList lg).get ⟨(logList lg).indexOf bno, hlt⟩ =
          lg.blk ((logList lg).indexOf bno) := by
        simp only [logList, List.get_eq_getElem, List.getElem_map, List.getElem_range]
      exact h10.symm.trans ((List.get_eq_getElem _ _).trans h9)
    have hlist : logList lg' = logList lg := by
      rw [← hlg']
      simp only [logList]
      refine List.map_congr_left ?_
      intro j _hj
      show (if j = (logList lg).indexOf bno then bno else lg.blk j) = lg.blk j
      by_cases hji : j = (logList lg).indexOf bno
      · subst hji; rw [if_pos rfl, hblk]
      · rw [if_neg hji]
    refine ⟨fun _ => ⟨hlist, hrc'.symm⟩, fun hn => absurd hmem hn, fun hd => ?_⟩
    rw [hlist]; exact hd
  · have hidx : (logList lg).indexOf bno = lg.n := by
      rw [← hlen]; exact List.indexOf_eq_length.mpr hmem
    rw [if_pos hidx] at hw
    simp only [Option.some.injEq, Prod.mk.injEq] at hw
    obtain ⟨hlg', hrc'⟩ := hw
    have hlist : logList lg' = logList lg ++ [bno] := by
      rw [← hlg']
      simp only [logList, List.range_succ, List.map_append, List.map_cons, List.map_nil]
      congr 1
      · refine List.map_congr_left ?_
        intro j hj
        have hjn : j < lg.n := List.mem_range.mp hj
        have hne9 : ¬ (j = (logList lg).indexOf bno) := by omega
        show (if j = (logList lg).indexOf bno then bno else lg.blk j) = lg.blk j
        rw [if_neg hne9]
      · show [if lg.n = (logList lg).indexOf bno then bno else lg.blk lg.n] = [bno]
        rw [if_pos hidx.symm]
    refine ⟨fun hm => absurd hm hmem, fun _ => ⟨hlist, hrc'.symm⟩, fun hd => ?_⟩
    rw [hlist]
    exact hd.append (List.nodup_singleton bno) (by simpa using hmem)

/-- Witness for C8: writing the new block 7 into a transaction that has
logged only block 5 appends 7 to the block list and pins the buffer. -/
theorem log_write_dedup_pin_witness :
    Log.write ⟨2, 30, 1, 0, 1, fun j => if j = 0 then 5 else 0⟩ 7 3 =
      some (⟨2, 30, 1, 0, 2, fun j => if j = 1 then 7
        else if j = 0 then 5 else 0⟩, 4) ∧
    ¬ (7 ∈ logList ⟨2, 30, 1, 0, 1, fun j => if j = 0 then 5 else 0⟩) ∧
    logList ⟨2, 30, 1, 0, 2, fun j => if j = 1 then 7 else if j = 0 then 5 else 0⟩ =
      logList ⟨2, 30, 1, 0, 1, fun j => if j = 0 then 5 else 0⟩ ++ [7] :=
  ⟨rfl, by decide,
    ((log_write_dedup_pin ⟨2, 30, 1, 0, 1, fun j => if j = 0 then 5 else 0⟩ 7 3
      ⟨2, 30, 1, 0, 2, fun j => if j = 1 then 7 else if j = 0 then 5 else 0⟩ 4
      rfl).2.1 (by decide)).1⟩

theorem bget_spec (bufs : List Buf) (dev blockno : Nat) (bs : List Buf) (i : Nat)
    (hzero : ∀ b ∈ bufs, b.slLocked = 0)
    (hg : bget bufs dev blockno = some (bs, i)) :
    (∀ b ∈ bs, b.slLocked = 0) ∧ i < bs.length := by
  unfold bget at hg
  cases h1 : bufs.findIdx? (fun b => b.dev == dev && b.blockno == blockno) with
  | some j =>
    simp only [h1] at hg
    cases h2 : bufs[j]? with
    | none => simp only [h2] at hg; exact Option.noConfusion hg
    | some b =>
      simp only [h2, Option.some.injEq, Prod.mk.injEq] at hg
      obtain ⟨hbs, hi⟩ := hg
      have hj : j < bufs.length := (List.getElem?_eq_some.mp h2).1
      constructor
      · intro b' hb'
        rw [← hbs] at hb'
        rcases List.mem_or_eq_of_mem_set hb' with h | h
        · exact hzero b' h
        · rw [h]; exact hzero b (List.getElem?_mem h2)
      · rw [← hbs, ← hi]
        simpa [List.length_set] using hj
  | none =>
    simp only [h1] at hg
    cases h1' : bufs.reverse.findIdx? (fun b => b.refcnt == 0) with
    | none => simp only [h1'] at hg; exact Option.noConfusion hg
    | some r =>
      simp only [h1'] at hg
      cases h2 : bufs.reverse[r]? with
      | none => simp only [h2] at hg; exact Option.noConfusion hg
      | some b =>
        simp only [h2, Option.some.injEq, Prod.mk.injEq] at hg
        obtain ⟨hbs, hi⟩ := hg
        have hr : r < bufs.length := by
          have := (List.getElem?_eq_some.mp h2).1
          simpa [List.length_reverse] using this
        have hbmem : b ∈ bufs := List.mem_reverse.mp (List.getElem?_mem h2)
        constructor
        · intro b' hb'
          rw [← hbs] at hb'
          rcases List.mem_or_eq_of_mem_set hb' with h | h
          · exact hzero b' h
          · rw [h]; exact hzero b hbmem
        · rw [← hbs, ← hi]
          simp only [List.length_set]
          omega

/-- C3: the claim says every buffer returned by `bread` has its
sleep-lock held by the caller, so that a subsequent `bwrite` passes its
`holding` check and writes without panicking.  In the code, `bget` only
acquires the sleep-lock's internal spin lock (`lock.lk`), never the
sleep-lock itself, so in any cache state whose sleep-locks are all free
(e.g. the state `binit` builds), the buffer `bread` returns still has
`Sleeplock.locked = 0`, and `bwrite` on it fails the holding check and
panics (`none`). -/
theorem bread_bwrite_sleeplock_panics (bufs : List Buf) (dev blockno pid : Nat)
    (hzero : ∀ b ∈ bufs, b.slLocked = 0)
    (bs : List Buf) (i : Nat)
    (hr : bread bufs dev blockno = some (bs, i)) :
    ∃ b, bs[i]? = some b ∧ b.slLocked = 0 ∧ bwrite bs i pid = none := by
  unfold bread at hr
  cases hg : bget bufs dev blockno with
  | none => simp only [hg] at hr; exact Option.noConfusion hr
  | some pr =>
    obtain ⟨bs0, i0⟩ := pr
    simp only [hg] at hr
    have hspec := bget_spec bufs dev blockno bs0 i0 hzero hg
    cases h2 : bs0[i0]? with
    | none => simp only [h2] at hr; exact Option.noConfusion hr
    | some b =>
      simp only [h2] at hr
      have hb0 : b.slLocked = 0 := hspec.1 b (List.getElem?_mem h2)
      by_cases hv : b.valid
      · rw [if_pos hv] at hr
        simp only [Option.some.injEq, Prod.mk.injEq] at hr
        obtain ⟨hbs, hi⟩ := hr
        refine ⟨b, by rw [← hbs, ← hi]; exact h2, hb0, ?_⟩
        unfold bwrite
        rw [← hbs, ← hi, h2]
        simp [sleeplockHolding, hb0]
      · rw [if_neg hv] at hr
        simp only [Option.some.injEq, Prod.mk.injEq] at hr
        obtain ⟨hbs, hi⟩ := hr
        have hget : (bs0.set i0 { b with valid := true })[i0]? =
            some { b with valid := true } :=
          List.getElem?_set_eq_of_lt _ hspec.2
        refine ⟨{ b with valid := true }, by rw [← hbs, ← hi]; exact hget, hb0, ?_⟩
        unfold bwrite
        rw [← hbs, ← hi, hget]
        simp [sleeplockHolding, hb0]

/-- Witness for C3: in the freshly initialized two-buffer cache, `bread`
of block (0, 1) repurposes the tail buffer; its sleep-lock is not held
and `bwrite` panics. -/
theorem bread_bwrite_sleeplock_panics_witness :
    (∀ b ∈ [(⟨0, 0, false, 0, 0, 0⟩ : Buf), ⟨0, 0, false, 0, 0, 0⟩], b.slLocked = 0) ∧
    bread [(⟨0, 0, false, 0, 0, 0⟩ : Buf), ⟨0, 0, false, 0, 0, 0⟩] 0 1 =
      some ([(⟨0, 0, false, 0, 0, 0⟩ : Buf), ⟨0, 1, true, 1, 0, 0⟩], 1) ∧
    (∃ b, [(⟨0, 0, false, 0, 0, 0⟩ : Buf), ⟨0, 1, true, 1, 0, 0⟩][(1 : Nat)]? = some b ∧
      b.slLocked = 0 ∧
      bwrite [(⟨0, 0, false, 0, 0, 0⟩ : Buf), ⟨0, 1, true, 1, 0, 0⟩] 1 7 = none) :=
  ⟨by decide, by decide,
    bread_bwrite_sleeplock_panics
      [(⟨0, 0, false, 0, 0, 0⟩ : Buf), ⟨0, 0, false, 0, 0, 0⟩] 0 1 7
      (by decide) _ _ (by decide)⟩

theorem bread_spec (bufs : List Buf) (dev blockno : Nat) (bs : List Buf) (i : Nat)
    (hzero : ∀ b ∈ bufs, b.slLocked = 0)
    (hr : bread bufs dev blockno = some (bs, i)) :
    ∀ b ∈ bs, b.slLocked = 0 := by
  unfold bread at hr
  cases hg : bget bufs dev blockno with
  | none => simp only [hg] at hr; exact Option.noConfusion hr
  | some pr =>
    obtain ⟨bs0, i0⟩ := pr
    simp only [hg] at hr
    have hspec := bget_spec bufs dev blockno bs0 i0 hzero hg
    cases h2 : bs0[i0]? with
    | none => simp only [h2] at hr; exact Option.noConfusion hr
    | some b =>
      simp only [h2] at hr
      by_cases hv : b.valid
      · rw [if_pos hv] at hr
        simp only [Option.some.injEq, Prod.mk.injEq] at hr
        obtain ⟨hbs, _⟩ := hr
        rw [← hbs]
        exact hspec.1
      · rw [if_neg hv] at hr
        simp only [Option.some.injEq, Prod.mk.injEq] at hr
        obtain ⟨hbs, _⟩ := hr
        rw [← hbs]
        intro x hx
        rcases List.mem_or_eq_of_mem_set hx with hm | he
        · exact hspec.1 x hm
        · rw [he]
          exact hspec.1 b (List.getElem?_mem h2)

theorem bwrite_unlocked (bs : List Buf) (i pid : Nat)
    (hzero : ∀ b ∈ bs, b.slLocked = 0) : bwrite bs i pid = none := by
  unfold bwrite
  cases hb : bs[i]? with
  | none => rfl
  | some b =>
    have h0 : b.slLocked = 0 := hzero b (List.getElem?_mem hb)
    simp [sleeplockHolding, h0]

/-- C6: the claim says `commit` with pending blocks performs, in order,
the log copies, the header write, the install copies, and the empty
header write.  In the code the very first of these disk writes already
panics: `write_log`'s first iteration calls `bwrite` on a buffer
returned by `bread`, and since `bget` never takes the buffer's
sleep-lock (src/bio.rs lines 107 and 123 acquire only `lock.lk`), in any
cache state whose sleep-locks are all free — the only states the bio
layer produces — `bwrite`'s holding check fails and it panics
("bwrite"); the alternative exit is `bget`'s own "no buffers" panic
inside `bread`.  So `commit` with `lh.n > 0` always panics before the
claimed trace, while with `lh.n = 0` it correctly performs no disk
writes. -/
theorem commit_first_write_panics (lg : Log) (bufs : List Buf) (dev pid : Nat)
    (hzero : ∀ b ∈ bufs, b.slLocked = 0) :
    (0 < lg.n →
      commitFirstWrite lg bufs dev pid = .panicNoBuffers ∨
      commitFirstWrite lg bufs dev pid = .panicBwrite) ∧
    (lg.n = 0 → commitFirstWrite lg bufs dev pid = .noWrites) := by
  constructor
  · intro hn
    cases h1 : bread bufs dev (lg.start + 1) with
    | none =>
      left
      unfold commitFirstWrite
      rw [if_pos hn]
      simp only [h1]
    | some pr1 =>
      obtain ⟨bs1, i1⟩ := pr1
      have hall1 := bread_spec bufs dev (lg.start + 1) bs1 i1 hzero h1
      cases h2 : bread bs1 dev (lg.blk 0) with
      | none =>
        left
        unfold commitFirstWrite
        rw [if_pos hn]
        simp only [h1, h2]
      | some pr2 =>
        obtain ⟨bs2, i2⟩ := pr2
        have hall2 := bread_spec bs1 dev (lg.blk 0) bs2 i2 hall1 h2
        right
        unfold commitFirstWrite
        rw [if_pos hn]
        simp only [h1, h2, bwrite_unlocked bs2 i1 pid hall2]
  · intro hn0
    unfold commitFirstWrite
    rw [if_neg (by omega)]

/-- Witness for C6: committing the single pending block of `lgC6` from
the freshly initialized two-buffer cache panics before the first log
write lands. -/
theorem commit_first_write_panics_witness :
    (∀ b ∈ bufsC6, b.slLocked = 0) ∧ 0 < lgC6.n ∧
    (commitFirstWrite lgC6 bufsC6 0 7 = .panicNoBuffers ∨
      commitFirstWrite lgC6 bufsC6 0 7 = .panicBwrite) :=
  ⟨by decide, by decide,
    (commit_first_write_panics lgC6 bufsC6 0 7 (by decide)).1 (by decide)⟩

theorem lor_two_pow_eq_add (i a b : Nat) (h : b < 2 ^ i) :
    (2 ^ i * a) ||| b = 2 ^ i * a + b := by
  apply Nat.eq_of_testBit_eq
  intro j
  rw [Nat.testBit_or, Nat.testBit_mul_pow_two_add a h j, Nat.testBit_mul_pow_two]
  by_cases hj : j < i
  · have hj2 : ¬ (j ≥ i) := by omega
    simp [hj, hj2]
  · have hj' : j ≥ i := by omega
    have hb : b.testBit j = false :=
      Nat.testBit_lt_two_pow
        (lt_of_lt_of_le h (Nat.pow_le_pow_right (by norm_num) hj'))
    simp [hj, hj', hb]

theorem interior_pte_eq (q : Nat) : (q <<< 10) ||| PTE_V = 2 ^ 10 * q + 1 := by
  rw [Nat.shiftLeft_eq, Nat.mul_comm]
  exact lor_two_pow_eq_add 10 q 1 (by norm_num)

theorem interior_pte_valid (q : Nat) : ((q <<< 10) ||| PTE_V) &&& PTE_V ≠ 0 := by
  rw [interior_pte_eq]
  show (2 ^ 10 * q + 1) &&& 1 ≠ 0
  rw [Nat.and_one_is_mod]
  show (1024 * q + 1) % 2 ≠ 0
  omega

theorem interior_pte_child (q : Nat) : ((q <<< 10) ||| PTE_V) >>> 10 = q := by
  rw [interior_pte_eq, Nat.shiftRight_eq_div_pow]
  show (1024 * q + 1) / 1024 = q
  omega

theorem permV_lt (perm : Nat) (hperm : perm < 1024) : perm ||| PTE_V < 2 ^ 10 :=
  Nat.or_lt_two_pow hperm (by norm_num [PTE_V])

theorem permV_odd (perm : Nat) : (perm ||| PTE_V) % 2 = 1 := by
  have h1 : (perm ||| 1) &&& 1 = (perm &&& 1) ||| (1 &&& 1) := Nat.and_distrib_right perm 1 1
  have h2 : (perm ||| PTE_V) % 2 = (perm % 2) ||| 1 := by
    show (perm ||| 1) % 2 = (perm % 2) ||| 1
    rw [← Nat.and_one_is_mod, h1, Nat.and_one_is_mod]
    rfl
  rw [h2]
  rcases Nat.mod_two_eq_zero_or_one perm with h | h <;> rw [h] <;> rfl

theorem leaf_pte_eq (pa perm : Nat) (hperm : perm < 1024) :
    pa2pte pa ||| perm ||| PTE_V = 2 ^ 10 * (pa >>> 12) + (perm ||| PTE_V) := by
  rw [Nat.lor_assoc, pa2pte, Nat.shiftLeft_eq, Nat.mul_comm]
  exact lor_two_pow_eq_add 10 _ _ (permV_lt perm hperm)

theorem leaf_pte_valid (pa perm : Nat) (hperm : perm < 1024) :
    (pa2pte pa ||| perm ||| PTE_V) &&& PTE_V ≠ 0 := by
  rw [leaf_pte_eq pa perm hperm]
  show (2 ^ 10 * (pa >>> 12) + (perm ||| PTE_V)) &&& 1 ≠ 0
  rw [Nat.and_one_is_mod]
  have hodd := permV_odd perm
  show (1024 * (pa >>> 12) + (perm ||| PTE_V)) % 2 ≠ 0
  omega

theorem leaf_pte_flags (pa perm : Nat) (hperm : perm < 1024) :
    pte_flags (pa2pte pa ||| perm ||| PTE_V) = perm ||| PTE_V := by
  rw [pte_flags, leaf_pte_eq pa perm hperm,
    show (0x3FF : Nat) = 2 ^ 10 - 1 by norm_num,
    Nat.and_pow_two_sub_one_eq_mod]
  have hB := permV_lt perm hperm
  show (1024 * (pa >>> 12) + (perm ||| PTE_V)) % 1024 = perm ||| PTE_V
  have hB' : perm ||| PTE_V < 1024 := hB
  omega

theorem leaf_pte_ppn (pa perm : Nat) (hperm : perm < 1024) :
    (pa2pte pa ||| perm ||| PTE_V) >>> 10 = pa >>> 12 := by
  rw [leaf_pte_eq pa perm hperm, Nat.shiftRight_eq_div_pow]
  have hB : perm ||| PTE_V < 1024 := permV_lt perm hperm
  show (1024 * (pa >>> 12) + (perm ||| PTE_V)) / 1024 = pa >>> 12
  omega

theorem leaf_pte2pa (pa perm : Nat) (hperm : perm < 1024) (hpa : pa % PGSIZE = 0) :
    pte2pa (pa2pte pa ||| perm ||| PTE_V) = pa := by
  rw [pte2pa, leaf_pte_ppn pa perm hperm, Nat.shiftRight_eq_div_pow, Nat.shiftLeft_eq]
  have hpa' : pa % 4096 = 0 := hpa
  show pa / 4096 * 4096 = pa
  omega

theorem leaf_pte_user (pa perm : Nat) (hperm : perm < 1024) (hU : perm &&& PTE_U ≠ 0) :
    (pa2pte pa ||| perm ||| PTE_V) &&& PTE_U ≠ 0 := by
  have h4 : perm.testBit 4 = true := by
    by_contra hff
    have hfb : perm.testBit 4 = false := by simpa using hff
    have hand := Nat.and_two_pow perm 4
    rw [hfb] at hand
    exact hU (by simpa using hand)
  rw [leaf_pte_eq pa perm hperm]
  have hB : perm ||| PTE_V < 2 ^ 10 := permV_lt perm hperm
  have hbit : (2 ^ 10 * (pa >>> 12) + (perm ||| PTE_V)).testBit 4 = true := by
    rw [Nat.testBit_mul_pow_two_add _ hB]
    have h10 : (4 : Nat) < 10 := by norm_num
    rw [if_pos h10]
    show (perm ||| 1).testBit 4 = true
    rw [Nat.testBit_or, h4]
    rfl
  have hand := Nat.and_two_pow (2 ^ 10 * (pa >>> 12) + (perm ||| PTE_V)) 4
  rw [hbit] at hand
  intro h0
  have h0' : (2 ^ 10 * (pa >>> 12) + (perm ||| PTE_V)) &&& 2 ^ 4 = 0 := h0
  rw [h0'] at hand
  simp at hand

theorem px_lt (level va : Nat) : px level va < 512 := by
  rw [px, show (0x1FF : Nat) = 2 ^ 9 - 1 by norm_num, Nat.and_pow_two_sub_one_eq_mod]
  exact Nat.mod_lt _ (by norm_num)

theorem px_eq_mod (level va : Nat) :
    px level va = (va >>> (12 + 9 * level)) % 512 := by
  rw [px, show (0x1FF : Nat) = 2 ^ 9 - 1 by norm_num, Nat.and_pow_two_sub_one_eq_mod]

theorem px_zero_eq (va : Nat) : px 0 va = (va >>> 12) % 512 := by
  rw [px_eq_mod]

theorem px_one_eq (va : Nat) : px 1 va = ((va >>> 12) / 512) % 512 := by
  rw [px_eq_mod, show 12 + 9 * 1 = 12 + 9 by norm_num, Nat.shiftRight_add,
    Nat.shiftRight_eq_div_pow (va >>> 12) 9]

theorem px_two_eq (va : Nat) : px 2 va = ((va >>> 12) / 262144) % 512 := by
  rw [px_eq_mod, show 12 + 9 * 2 = 12 + 18 by norm_num, Nat.shiftRight_add,
    Nat.shiftRight_eq_div_pow (va >>> 12) 18]

theorem vpn_lt_of_maxva (va : Nat) (hva : va < MAXVA) : va >>> 12 < 67108864 := by
  have hva' : va < 274877906944 := hva
  rw [Nat.shiftRight_eq_div_pow]
  show va / 4096 < 67108864
  omega

theorem vpn_eq_of_px_eq (va va' : Nat) (hva : va < MAXVA) (hva' : va' < MAXVA)
    (h0 : px 0 va = px 0 va') (h1 : px 1 va = px 1 va') (h2 : px 2 va = px 2 va') :
    va >>> 12 = va' >>> 12 := by
  rw [px_zero_eq, px_zero_eq] at h0
  rw [px_one_eq, px_one_eq] at h1
  rw [px_two_eq, px_two_eq] at h2
  have hx := vpn_lt_of_maxva va hva
  have hy := vpn_lt_of_maxva va' hva'
  omega

theorem vpn_add_pages (a j : Nat) : (a + j * 4096) >>> 12 = a >>> 12 + j := by
  rw [Nat.shiftRight_eq_div_pow, Nat.shiftRight_eq_div_pow]
  show (a + j * 4096) / 4096 = a / 4096 + j
  exact Nat.add_mul_div_right a j (by norm_num)

theorem writePTE_pages (m : Mem) (p i v q j : Nat) :
    (writePTE m p i v).pages q j = if q = p ∧ j = i then v else m.pages q j := rfl

theorem zeroPage_pages (m : Mem) (p q j : Nat) :
    (zeroPage m p).pages q j = if q = p then 0 else m.pages q j := rfl

theorem child_congr (m m' : Mem) (p i : Nat) (h : m'.pages p i = m.pages p i) :
    child m' p i = child m p i := by
  unfold child
  rw [h]

theorem walkStep_false_eq_child (m : Mem) (pt idx : Nat) :
    walkStep m pt idx false = (child m pt idx).map (fun p => (p, m)) := by
  unfold walkStep child
  by_cases h : m.pages pt idx &&& PTE_V ≠ 0
  · rw [if_pos h, if_pos h]; rfl
  · rw [if_neg h, if_neg h]; rfl

theorem walkStep_true_spec (m : Mem) (pt idx : Nat) (p' : Nat) (m' : Mem)
    (hw : walkStep m pt idx true = some (p', m')) :
    (child m pt idx = some p' ∧ m' = m) ∨
    (child m pt idx = none ∧ ∃ rest, m.free = p' :: rest ∧
      m' = writePTE (zeroPage { m with free := rest } p') pt idx
        ((p' <<< 10) ||| PTE_V)) := by
  unfold walkStep at hw
  by_cases h : m.pages pt idx &&& PTE_V ≠ 0
  · rw [if_pos h] at hw
    simp only [Option.some.injEq, Prod.mk.injEq] at hw
    left
    refine ⟨?_, hw.2.symm⟩
    unfold child
    rw [if_pos h, hw.1]
  · rw [if_neg h] at hw
    simp only [not_true, if_false] at hw
    right
    refine ⟨by unfold child; rw [if_neg h], ?_⟩
    unfold kalloc at hw
    cases hfree : m.free with
    | nil => rw [hfree] at hw; exact Option.noConfusion hw
    | cons q rest =>
      rw [hfree] at hw
      simp only [Option.some.injEq, Prod.mk.injEq] at hw
      obtain ⟨hq, hm⟩ := hw
      subst hq
      exact ⟨rest, rfl, hm.symm⟩

theorem resolve_some_elim (m : Mem) (root va p0 i0 : Nat)
    (h : resolve m root va = some (p0, i0)) :
    i0 = px 0 va ∧ ∃ p1, child m root (px 2 va) = some p1 ∧
      child m p1 (px 1 va) = some p0 ∧ isT1 m root p1 ∧ isT0 m root p0 := by
  unfold resolve at h
  cases h2 : child m root (px 2 va) with
  | none => simp only [h2] at h; exact Option.noConfusion h
  | some p1 =>
    simp only [h2] at h
    cases h1 : child m p1 (px 1 va) with
    | none => simp only [h1] at h; exact Option.noConfusion h
    | some p0' =>
      simp only [h1, Option.some.injEq, Prod.mk.injEq] at h
      obtain ⟨hp, hi⟩ := h
      subst hp hi
      have ht1 : isT1 m root p1 := ⟨px 2 va, px_lt 2 va, h2⟩
      exact ⟨rfl, p1, rfl, h1, ht1, ⟨p1, ht1, px 1 va, px_lt 1 va, h1⟩⟩

theorem resolve_inj (m : Mem) (root : Nat) (hwf : WF m root) (va va' : Nat)
    (hva : va < MAXVA) (hva' : va' < MAXVA) (p0 i0 : Nat)
    (h : resolve m root va = some (p0, i0)) (h' : resolve m root va' = some (p0, i0)) :
    va >>> 12 = va' >>> 12 := by
  obtain ⟨hi, p1, hc2, hc1, ht1, _⟩ := resolve_some_elim m root va p0 i0 h
  obtain ⟨hi', p1', hc2', hc1', ht1', _⟩ := resolve_some_elim m root va' p0 i0 h'
  have h0 : px 0 va = px 0 va' := by rw [← hi, ← hi']
  have hpp := hwf.inj0 p1 p1' (px 1 va) (px 1 va') p0 ht1 ht1'
    (px_lt 1 va) (px_lt 1 va') hc1 hc1'
  have h2 : px 2 va = px 2 va' :=
    hwf.inj1 (px 2 va) (px 2 va') p1 (px_lt 2 va) (px_lt 2 va') hc2 (hpp.1 ▸ hc2')
  exact vpn_eq_of_px_eq va va' hva hva' h0 hpp.2 h2

theorem walk_alloc1_spec (m : Mem) (root va : Nat) (hwf : WF m root)
    (p1 : Nat) (hc2 : child m root (px 2 va) = some p1)
    (hc1 : child m p1 (px 1 va) = none)
    (q : Nat) (rest : List Nat) (hfree : m.free = q :: rest)
    (m' : Mem)
    (hm' : m' = writePTE (zeroPage { m with free := rest } q) p1 (px 1 va)
      ((q <<< 10) ||| PTE_V)) :
    WF m' root ∧ resolve m' root va = some (q, px 0 va) ∧ isT0 m' root q ∧
    (∀ va', leafPTE m' root va' = leafPTE m root va') := by
  have hqmem : q ∈ m.free := by rw [hfree]; exact List.mem_cons_self q rest
  obtain ⟨hqroot, hqT1, hqT0⟩ := hwf.freeFresh q hqmem
  have ht1 : isT1 m root p1 := ⟨px 2 va, px_lt 2 va, hc2⟩
  have hp1root : p1 ≠ root := fun h => hwf.rootNotT1 (h ▸ ht1)
  have hqp1 : q ≠ p1 := fun h => hqT1 (by rw [h]; exact ht1)
  have hpages : ∀ x j, m'.pages x j =
      if x = p1 ∧ j = px 1 va then (q <<< 10) ||| PTE_V
      else if x = q then 0 else m.pages x j := by
    intro x j
    rw [hm']
    rfl
  have hfree' : m'.free = rest := by rw [hm']; rfl
  have rowRoot : ∀ j, m'.pages root j = m.pages root j := by
    intro j
    rw [hpages, if_neg (by rintro ⟨h, _⟩; exact hp1root h.symm),
      if_neg (fun h => hqroot h.symm)]
  have rowQ : ∀ j, m'.pages q j = 0 := by
    intro j
    rw [hpages, if_neg (by rintro ⟨h, _⟩; exact hqp1 h), if_pos rfl]
  have slotNew : m'.pages p1 (px 1 va) = (q <<< 10) ||| PTE_V := by
    rw [hpages, if_pos ⟨rfl, rfl⟩]
  have rowT1 : ∀ x j, isT1 m root x → ¬ (x = p1 ∧ j = px 1 va) →
      m'.pages x j = m.pages x j := by
    intro x j hx hnot
    rw [hpages, if_neg hnot, if_neg (fun h => hqT1 (by rw [← h]; exact hx))]
  have rowT0 : ∀ x j, isT0 m root x → m'.pages x j = m.pages x j := by
    intro x j hx
    rw [hpages, if_neg (by rintro ⟨h, _⟩; exact hwf.t1NotT0 p1 ht1 (by rw [← h]; exact hx)),
      if_neg (fun h => hqT0 (by rw [← h]; exact hx))]
  have childRoot : ∀ i, child m' root i = child m root i :=
    fun i => child_congr m m' root i (rowRoot i)
  have childT1 : ∀ x i, isT1 m root x → ¬ (x = p1 ∧ i = px 1 va) →
      child m' x i = child m x i :=
    fun x i hx hn => child_congr m m' x i (rowT1 x i hx hn)
  have childP1New : child m' p1 (px 1 va) = some q := by
    unfold child
    rw [slotNew, if_pos (interior_pte_valid q), interior_pte_child q]
  have hT1iff : ∀ x, isT1 m' root x ↔ isT1 m root x := by
    intro x
    constructor
    · rintro ⟨i, hi, hc⟩
      exact ⟨i, hi, by rw [← childRoot i]; exact hc⟩
    · rintro ⟨i, hi, hc⟩
      exact ⟨i, hi, by rw [childRoot i]; exact hc⟩
  have hT0iff : ∀ x, isT0 m' root x ↔ (isT0 m root x ∨ x = q) := by
    intro x
    constructor
    · rintro ⟨p, hp, j, hj, hc⟩
      have hpm : isT1 m root p := (hT1iff p).mp hp
      by_cases hcond : p = p1 ∧ j = px 1 va
      · right
        obtain ⟨h1, h2⟩ := hcond
        rw [h1, h2, childP1New] at hc
        injection hc with hc
        exact hc.symm
      · left
        exact ⟨p, hpm, j, hj, by rw [← childT1 p j hpm hcond]; exact hc⟩
    · rintro (⟨p, hp, j, hj, hc⟩ | hx)
      · have hcond : ¬ (p = p1 ∧ j = px 1 va) := by
          rintro ⟨h1, h2⟩
          rw [h1, h2, hc1] at hc
          exact Option.noConfusion hc
        exact ⟨p, (hT1iff p).mpr hp, j, hj, by rw [childT1 p j hp hcond]; exact hc⟩
      · rw [hx]
        exact ⟨p1, (hT1iff p1).mpr ht1, px 1 va, px_lt 1 va, childP1New⟩
  have hwf' : WF m' root := by
    constructor
    · intro h
      exact hwf.rootNotT1 ((hT1iff root).mp h)
    · intro h
      rcases (hT0iff root).mp h with h | h
      · exact hwf.rootNotT0 h
      · exact hqroot h.symm
    · intro x hx1 hx0
      rcases (hT0iff x).mp hx0 with h | h
      · exact hwf.t1NotT0 x ((hT1iff x).mp hx1) h
      · exact hqT1 (by rw [← h]; exact (hT1iff x).mp hx1)
    · intro i j t hi hj hci hcj
      rw [childRoot i] at hci
      rw [childRoot j] at hcj
      exact hwf.inj1 i j t hi hj hci hcj
    · intro p p' j j' t hp hp' hj hj' hc hc'
      have hpm := (hT1iff p).mp hp
      have hpm' := (hT1iff p').mp hp'
      by_cases hcond : p = p1 ∧ j = px 1 va
      · by_cases hcond' : p' = p1 ∧ j' = px 1 va
        · exact ⟨hcond.1.trans hcond'.1.symm, hcond.2.trans hcond'.2.symm⟩
        · exfalso
          obtain ⟨h1, h2⟩ := hcond
          rw [h1, h2, childP1New] at hc
          injection hc with hc
          rw [childT1 p' j' hpm' hcond'] at hc'
          rw [← hc] at hc'
          exact hqT0 ⟨p', hpm', j', hj', hc'⟩
      · by_cases hcond' : p' = p1 ∧ j' = px 1 va
        · exfalso
          obtain ⟨h1, h2⟩ := hcond'
          rw [h1, h2, childP1New] at hc'
          injection hc' with hc'
          rw [childT1 p j hpm hcond] at hc
          rw [← hc'] at hc
          exact hqT0 ⟨p, hpm, j, hj, hc⟩
        · rw [childT1 p j hpm hcond] at hc
          rw [childT1 p' j' hpm' hcond'] at hc'
          exact hwf.inj0 p p' j j' t hpm hpm' hj hj' hc hc'
    · rw [hfree']
      have hnd := hwf.freeNodup
      rw [hfree] at hnd
      exact hnd.of_cons
    · intro x hx
      rw [hfree'] at hx
      have hxm : x ∈ m.free := by rw [hfree]; exact List.mem_cons_of_mem q hx
      obtain ⟨h1, h2, h3⟩ := hwf.freeFresh x hxm
      have hxq : x ≠ q := by
        intro h
        have hnd := hwf.freeNodup
        rw [hfree] at hnd
        exact (List.nodup_cons.mp hnd).1 (by rw [← h]; exact hx)
      refine ⟨h1, fun h => h2 ((hT1iff x).mp h), fun h => ?_⟩
      rcases (hT0iff x).mp h with h | h
      · exact h3 h
      · exact hxq h
  have hres : resolve m' root va = some (q, px 0 va) := by
    simp only [resolve, childRoot, hc2, childP1New]
  have ht0q : isT0 m' root q := (hT0iff q).mpr (Or.inr rfl)
  have hleaf : ∀ va', leafPTE m' root va' = leafPTE m root va' := by
    intro va'
    by_cases hsame : px 2 va' = px 2 va ∧ px 1 va' = px 1 va
    · obtain ⟨hs2, hs1⟩ := hsame
      have hnew : resolve m' root va' = some (q, px 0 va') := by
        simp only [resolve, hs2, hs1, childRoot, hc2, childP1New]
      have hold : resolve m root va' = none := by
        simp only [resolve, hs2, hc2, hs1, hc1]
      simp only [leafPTE, hnew, hold, rowQ]
      simp [PTE_V]
    · cases hc2' : child m root (px 2 va') with
      | none =>
        have e1 : resolve m' root va' = none := by
          simp only [resolve, childRoot, hc2']
        have e2 : resolve m root va' = none := by
          simp only [resolve, hc2']
        simp only [leafPTE, e1, e2]
      | some p1' =>
        have ht1' : isT1 m root p1' := ⟨px 2 va', px_lt 2 va', hc2'⟩
        have hcond : ¬ (p1' = p1 ∧ px 1 va' = px 1 va) := by
          rintro ⟨h1, h2⟩
          exact hsame ⟨hwf.inj1 (px 2 va') (px 2 va) p1 (px_lt 2 va') (px_lt 2 va)
            (h1 ▸ hc2') hc2, h2⟩
        have hchild1 : child m' p1' (px 1 va') = child m p1' (px 1 va') :=
          childT1 p1' (px 1 va') ht1' hcond
        cases hc1' : child m p1' (px 1 va') with
        | none =>
          have e1 : resolve m' root va' = none := by
            simp only [resolve, childRoot, hc2', hchild1, hc1']
          have e2 : resolve m root va' = none := by
            simp only [resolve, hc2', hc1']
          simp only [leafPTE, e1, e2]
        | some p0' =>
          have ht0' : isT0 m root p0' := ⟨p1', ht1', px 1 va', px_lt 1 va', hc1'⟩
          have e1 : resolve m' root va' = some (p0', px 0 va') := by
            simp only [resolve, childRoot, hc2', hchild1, hc1']
          have e2 : resolve m root va' = some (p0', px 0 va') := by
            simp only [resolve, hc2', hc1']
          simp only [leafPTE, e1, e2, rowT0 p0' (px 0 va') ht0']
  exact ⟨hwf', hres, ht0q, hleaf⟩

theorem walk_alloc2_spec (m : Mem) (root va : Nat) (hwf : WF m root)
    (hc2 : child m root (px 2 va) = none)
    (q : Nat) (rest : List Nat) (hfree : m.free = q :: rest)
    (m1 : Mem)
    (hm1 : m1 = writePTE (zeroPage { m with free := rest } q) root (px 2 va)
      ((q <<< 10) ||| PTE_V)) :
    WF m1 root ∧ child m1 root (px 2 va) = some q ∧
    (∀ i, child m1 q i = none) ∧ m1.free = rest ∧
    (∀ va', leafPTE m1 root va' = leafPTE m root va') := by
  have hqmem : q ∈ m.free := by rw [hfree]; exact List.mem_cons_self q rest
  obtain ⟨hqroot, hqT1, hqT0⟩ := hwf.freeFresh q hqmem
  have hpages : ∀ x j, m1.pages x j =
      if x = root ∧ j = px 2 va then (q <<< 10) ||| PTE_V
      else if x = q then 0 else m.pages x j := by
    intro x j
    rw [hm1]
    rfl
  have hfree' : m1.free = rest := by rw [hm1]; rfl
  have slotNew : m1.pages root (px 2 va) = (q <<< 10) ||| PTE_V := by
    rw [hpages, if_pos ⟨rfl, rfl⟩]
  have rowRootOther : ∀ j, j ≠ px 2 va → m1.pages root j = m.pages root j := by
    intro j hj
    rw [hpages, if_neg (by rintro ⟨_, h⟩; exact hj h),
      if_neg (fun h => hqroot h.symm)]
  have rowQ : ∀ j, m1.pages q j = 0 := by
    intro j
    rw [hpages, if_neg (by rintro ⟨h, _⟩; exact hqroot h), if_pos rfl]
  have rowT1 : ∀ x j, isT1 m root x → m1.pages x j = m.pages x j := by
    intro x j hx
    rw [hpages,
      if_neg (by rintro ⟨h, _⟩; rw [h] at hx; exact hwf.rootNotT1 hx),
      if_neg (fun h => hqT1 (by rw [← h]; exact hx))]
  have rowT0 : ∀ x j, isT0 m root x → m1.pages x j = m.pages x j := by
    intro x j hx
    rw [hpages,
      if_neg (by rintro ⟨h, _⟩; rw [h] at hx; exact hwf.rootNotT0 hx),
      if_neg (fun h => hqT0 (by rw [← h]; exact hx))]
  have childRootOther : ∀ i, i ≠ px 2 va → child m1 root i = child m root i :=
    fun i hi => child_congr m m1 root i (rowRootOther i hi)
  have childRootNew : child m1 root (px 2 va) = some q := by
    unfold child
    rw [slotNew, if_pos (interior_pte_valid q), interior_pte_child q]
  have childT1 : ∀ x i, isT1 m root x → child m1 x i = child m x i :=
    fun x i hx => child_congr m m1 x i (rowT1 x i hx)
  have childT0 : ∀ x i, isT0 m root x → child m1 x i = child m x i :=
    fun x i hx => child_congr m m1 x i (rowT0 x i hx)
  have childQ : ∀ i, child m1 q i = none := by
    intro i
    unfold child
    rw [rowQ i]
    simp [PTE_V]
  have hT1iff : ∀ x, isT1 m1 root x ↔ (isT1 m root x ∨ x = q) := by
    intro x
    constructor
    · rintro ⟨i, hi, hc⟩
      by_cases hipx : i = px 2 va
      · right
        rw [hipx, childRootNew] at hc
        injection hc with hc
        exact hc.symm
      · left
        exact ⟨i, hi, by rw [← childRootOther i hipx]; exact hc⟩
    · rintro (⟨i, hi, hc⟩ | hx)
      · have hipx : i ≠ px 2 va := by
          intro h
          rw [h, hc2] at hc
          exact Option.noConfusion hc
        exact ⟨i, hi, by rw [childRootOther i hipx]; exact hc⟩
      · rw [hx]
        exact ⟨px 2 va, px_lt 2 va, childRootNew⟩
  have hT0iff : ∀ x, isT0 m1 root x ↔ isT0 m root x := by
    intro x
    constructor
    · rintro ⟨p, hp, j, hj, hc⟩
      rcases (hT1iff p).mp hp with hpm | hpq
      · exact ⟨p, hpm, j, hj, by rw [← childT1 p j hpm]; exact hc⟩
      · rw [hpq, childQ j] at hc
        exact Option.noConfusion hc
    · rintro ⟨p, hp, j, hj, hc⟩
      exact ⟨p, (hT1iff p).mpr (Or.inl hp), j, hj, by rw [childT1 p j hp]; exact hc⟩
  have hwf1 : WF m1 root := by
    constructor
    · intro h
      rcases (hT1iff root).mp h with h | h
      · exact hwf.rootNotT1 h
      · exact hqroot h.symm
    · intro h
      exact hwf.rootNotT0 ((hT0iff root).mp h)
    · intro x hx1 hx0
      have hx0m := (hT0iff x).mp hx0
      rcases (hT1iff x).mp hx1 with h | h
      · exact hwf.t1NotT0 x h hx0m
      · exact hqT0 (by rw [← h]; exact hx0m)
    · intro i j t hi hj hci hcj
      by_cases hipx : i = px 2 va
      · by_cases hjpx : j = px 2 va
        · rw [hipx, hjpx]
        · exfalso
          rw [hipx, childRootNew] at hci
          injection hci with hci
          rw [childRootOther j hjpx] at hcj
          rw [← hci] at hcj
          exact hqT1 ⟨j, hj, hcj⟩
      · by_cases hjpx : j = px 2 va
        · exfalso
          rw [hjpx, childRootNew] at hcj
          injection hcj with hcj
          rw [childRootOther i hipx] at hci
          rw [← hcj] at hci
          exact hqT1 ⟨i, hi, hci⟩
        · rw [childRootOther i hipx] at hci
          rw [childRootOther j hjpx] at hcj
          exact hwf.inj1 i j t hi hj hci hcj
    · intro p p' j j' t hp hp' hj hj' hc hc'
      rcases (hT1iff p).mp hp with hpm | hpq
      · rcases (hT1iff p').mp hp' with hpm' | hpq'
        · rw [childT1 p j hpm] at hc
          rw [childT1 p' j' hpm'] at hc'
          exact hwf.inj0 p p' j j' t hpm hpm' hj hj' hc hc'
        · exfalso
          rw [hpq', childQ j'] at hc'
          exact Option.noConfusion hc'
      · exfalso
        rw [hpq, childQ j] at hc
        exact Option.noConfusion hc
    · rw [hfree']
      have hnd := hwf.freeNodup
      rw [hfree] at hnd
      exact hnd.of_cons
    · intro x hx
      rw [hfree'] at hx
      have hxm : x ∈ m.free := by rw [hfree]; exact List.mem_cons_of_mem q hx
      obtain ⟨h1, h2, h3⟩ := hwf.freeFresh x hxm
      have hxq : x ≠ q := by
        intro h
        have hnd := hwf.freeNodup
        rw [hfree] at hnd
        exact (List.nodup_cons.mp hnd).1 (by rw [← h]; exact hx)
      refine ⟨h1, fun h => ?_, fun h => h3 ((hT0iff x).mp h)⟩
      rcases (hT1iff x).mp h with h | h
      · exact h2 h
      · exact hxq h
  have hleaf : ∀ va', leafPTE m1 root va' = leafPTE m root va' := by
    intro va'
    by_cases hsame : px 2 va' = px 2 va
    · have hnew : resolve m1 root va' = none := by
        simp only [resolve, hsame, childRootNew, childQ]
      have hold : resolve m root va' = none := by
        simp only [resolve, hsame, hc2]
      simp only [leafPTE, hnew, hold]
    · have hcr : child m1 root (px 2 va') = child m root (px 2 va') :=
        childRootOther (px 2 va') hsame
      cases hc2' : child m root (px 2 va') with
      | none =>
        have e1 : resolve m1 root va' = none := by
          simp only [resolve, hcr, hc2']
        have e2 : resolve m root va' = none := by
          simp only [resolve, hc2']
        simp only [leafPTE, e1, e2]
      | some p1' =>
        have ht1' : isT1 m root p1' := ⟨px 2 va', px_lt 2 va', hc2'⟩
        cases hc1' : child m p1' (px 1 va') with
        | none =>
          have e1 : resolve m1 root va' = none := by
            simp only [resolve, hcr, hc2', childT1 p1' (px 1 va') ht1', hc1']
          have e2 : resolve m root va' = none := by
            simp only [resolve, hc2', hc1']
          simp only [leafPTE, e1, e2]
        | some p0' =>
          have ht0' : isT0 m root p0' := ⟨p1', ht1', px 1 va', px_lt 1 va', hc1'⟩
          have e1 : resolve m1 root va' = some (p0', px 0 va') := by
            simp only [resolve, hcr, hc2', childT1 p1' (px 1 va') ht1', hc1']
          have e2 : resolve m root va' = some (p0', px 0 va') := by
            simp only [resolve, hc2', hc1']
          simp only [leafPTE, e1, e2, rowT0 p0' (px 0 va') ht0']
  exact ⟨hwf1, childRootNew, childQ, hfree', hleaf⟩

theorem walk_alloc_spec (m : Mem) (root va : Nat) (hwf : WF m root)
    (p0 i0 : Nat) (m' : Mem)
    (hw : walk m root va true = .ok p0 i0 m') :
    va < MAXVA ∧ i0 = px 0 va ∧ WF m' root ∧
    resolve m' root va = some (p0, px 0 va) ∧ isT0 m' root p0 ∧
    (∀ va', leafPTE m' root va' = leafPTE m root va') := by
  unfold walk at hw
  by_cases hva : va ≥ MAXVA
  · rw [if_pos hva] at hw
    exact WalkRes.noConfusion hw
  rw [if_neg hva] at hw
  refine ⟨by omega, ?_⟩
  cases hs2 : walkStep m root (px 2 va) true with
  | none =>
    simp only [hs2] at hw
    exact WalkRes.noConfusion hw
  | some pr =>
    obtain ⟨p1, m1⟩ := pr
    simp only [hs2] at hw
    cases hs1 : walkStep m1 p1 (px 1 va) true with
    | none =>
      simp only [hs1] at hw
      exact WalkRes.noConfusion hw
    | some pr2 =>
      obtain ⟨p0', m2⟩ := pr2
      simp only [hs1, WalkRes.ok.injEq] at hw
      obtain ⟨hp0, hi0, hm2⟩ := hw
      subst hp0
      subst hm2
      refine ⟨hi0.symm, ?_⟩
      rcases walkStep_true_spec m root (px 2 va) p1 m1 hs2 with
        ⟨hch2, hm1⟩ | ⟨hch2, rest1, hfree1, hm1⟩
      · subst hm1
        rcases walkStep_true_spec m1 p1 (px 1 va) p0' m2 hs1 with
          ⟨hch1, hm2'⟩ | ⟨hch1, rest2, hfree2, hm2'⟩
        · rw [hm2']
          have ht1 : isT1 m1 root p1 := ⟨px 2 va, px_lt 2 va, hch2⟩
          refine ⟨hwf, ?_, ⟨p1, ht1, px 1 va, px_lt 1 va, hch1⟩, fun _ => rfl⟩
          simp only [resolve, hch2, hch1]
        · obtain ⟨hwf2, hres2, ht0, hleaf⟩ :=
            walk_alloc1_spec m1 root va hwf p1 hch2 hch1 p0' rest2 hfree2 m2 hm2'
          exact ⟨hwf2, hres2, ht0, hleaf⟩
      · obtain ⟨hwfm1, hc2New, hchQ, hfree1', hleaf1⟩ :=
          walk_alloc2_spec m root va hwf hch2 p1 rest1 hfree1 m1 hm1
        rcases walkStep_true_spec m1 p1 (px 1 va) p0' m2 hs1 with
          ⟨hch1, hm2'⟩ | ⟨hch1, rest2, hfree2, hm2'⟩
        · rw [hchQ (px 1 va)] at hch1
          exact Option.noConfusion hch1
        · have hfree2' : m1.free = p0' :: rest2 := hfree2
          obtain ⟨hwf2, hres2, ht0, hleaf⟩ :=
            walk_alloc1_spec m1 root va hwfm1 p1 hc2New (hchQ (px 1 va)) p0'
              rest2 hfree2' m2 hm2'
          exact ⟨hwf2, hres2, ht0, fun va' => (hleaf va').trans (hleaf1 va')⟩

theorem leaf_write_spec (m : Mem) (root : Nat) (hwf : WF m root)
    (p0 i0 : Nat) (ht0 : isT0 m root p0) (v : Nat) :
    WF (writePTE m p0 i0 v) root ∧
    (∀ va', resolve (writePTE m p0 i0 v) root va' = resolve m root va') ∧
    (∀ va', resolve m root va' = some (p0, i0) →
      leafPTE (writePTE m p0 i0 v) root va' =
        if v &&& PTE_V ≠ 0 then some v else none) ∧
    (∀ va', resolve m root va' ≠ some (p0, i0) →
      leafPTE (writePTE m p0 i0 v) root va' = leafPTE m root va') := by
  have hp0root : p0 ≠ root := by
    intro h
    rw [h] at ht0
    exact hwf.rootNotT0 ht0
  have hp0T1 : ¬ isT1 m root p0 := fun h => hwf.t1NotT0 p0 h ht0
  have hpages : ∀ x j, (writePTE m p0 i0 v).pages x j =
      if x = p0 ∧ j = i0 then v else m.pages x j := fun x j => rfl
  have rowRoot : ∀ j, (writePTE m p0 i0 v).pages root j = m.pages root j := by
    intro j
    rw [hpages, if_neg (by rintro ⟨h, _⟩; exact hp0root h.symm)]
  have rowT1 : ∀ x j, isT1 m root x →
      (writePTE m p0 i0 v).pages x j = m.pages x j := by
    intro x j hx
    rw [hpages, if_neg (by rintro ⟨h, _⟩; rw [h] at hx; exact hp0T1 hx)]
  have childRoot : ∀ i, child (writePTE m p0 i0 v) root i = child m root i :=
    fun i => child_congr m _ root i (rowRoot i)
  have childT1 : ∀ x i, isT1 m root x →
      child (writePTE m p0 i0 v) x i = child m x i :=
    fun x i hx => child_congr m _ x i (rowT1 x i hx)
  have hT1iff : ∀ x, isT1 (writePTE m p0 i0 v) root x ↔ isT1 m root x := by
    intro x
    constructor
    · rintro ⟨i, hi, hc⟩
      exact ⟨i, hi, by rw [← childRoot i]; exact hc⟩
    · rintro ⟨i, hi, hc⟩
      exact ⟨i, hi, by rw [childRoot i]; exact hc⟩
  have hT0iff : ∀ x, isT0 (writePTE m p0 i0 v) root x ↔ isT0 m root x := by
    intro x
    constructor
    · rintro ⟨p, hp, j, hj, hc⟩
      have hpm := (hT1iff p).mp hp
      exact ⟨p, hpm, j, hj, by rw [← childT1 p j hpm]; exact hc⟩
    · rintro ⟨p, hp, j, hj, hc⟩
      exact ⟨p, (hT1iff p).mpr hp, j, hj, by rw [childT1 p j hp]; exact hc⟩
  have hwf' : WF (writePTE m p0 i0 v) root := by
    constructor
    · intro h
      exact hwf.rootNotT1 ((hT1iff root).mp h)
    · intro h
      exact hwf.rootNotT0 ((hT0iff root).mp h)
    · intro x hx1 hx0
      exact hwf.t1NotT0 x ((hT1iff x).mp hx1) ((hT0iff x).mp hx0)
    · intro i j t hi hj hci hcj
      rw [childRoot i] at hci
      rw [childRoot j] at hcj
      exact hwf.inj1 i j t hi hj hci hcj
    · intro p p' j j' t hp hp' hj hj' hc hc'
      have hpm := (hT1iff p).mp hp
      have hpm' := (hT1iff p').mp hp'
      rw [childT1 p j hpm] at hc
      rw [childT1 p' j' hpm'] at hc'
      exact hwf.inj0 p p' j j' t hpm hpm' hj hj' hc hc'
    · exact hwf.freeNodup
    · intro x hx
      obtain ⟨h1, h2, h3⟩ := hwf.freeFresh x hx
      exact ⟨h1, fun h => h2 ((hT1iff x).mp h), fun h => h3 ((hT0iff x).mp h)⟩
  have hresEq : ∀ va', resolve (writePTE m p0 i0 v) root va' = resolve m root va' := by
    intro va'
    cases hc2' : child m root (px 2 va') with
    | none => simp only [resolve, childRoot, hc2']
    | some p1' =>
      have ht1' : isT1 m root p1' := ⟨px 2 va', px_lt 2 va', hc2'⟩
      simp only [resolve, childRoot, hc2', childT1 p1' (px 1 va') ht1']
  refine ⟨hwf', hresEq, ?_, ?_⟩
  · intro va' hres
    have hv : (writePTE m p0 i0 v).pages p0 i0 = v := by
      rw [hpages, if_pos ⟨rfl, rfl⟩]
    simp only [leafPTE, hresEq va', hres, hv]
  · intro va' hne
    cases hres' : resolve m root va' with
    | none => simp only [leafPTE, hresEq va', hres']
    | some pr =>
      obtain ⟨p, i⟩ := pr
      have hnot : ¬ (p = p0 ∧ i = i0) := by
        rintro ⟨h1, h2⟩
        rw [h1, h2] at hres'
        exact hne hres'
      have hpg : (writePTE m p0 i0 v).pages p i = m.pages p i := by
        rw [hpages, if_neg hnot]
      simp only [leafPTE, hresEq va', hres', hpg]

theorem or_pteV_valid (w : Nat) : (w ||| PTE_V) &&& PTE_V ≠ 0 := by
  have h1 : (w ||| 1) &&& 1 = (w &&& 1) ||| (1 &&& 1) := Nat.and_distrib_right w 1 1
  show (w ||| 1) &&& 1 ≠ 0
  rw [h1, Nat.and_one_is_mod]
  rcases Nat.mod_two_eq_zero_or_one w with h | h <;> rw [h] <;> decide

theorem mapLoop_spec (root perm : Nat) :
    ∀ n a pa m mF, WF m root →
      mapLoop root perm n a pa m = .ok mF →
      WF mF root ∧
      (∀ k, k < n →
        leafPTE mF root (a + k * PGSIZE) =
          some (pa2pte (pa + k * PGSIZE) ||| perm ||| PTE_V)) ∧
      (∀ va', va' < MAXVA →
        (∀ k, k < n → va' >>> 12 ≠ (a + k * PGSIZE) >>> 12) →
        leafPTE mF root va' = leafPTE m root va') := by
  intro n
  induction n with
  | zero =>
    intro a pa m mF hwf hml
    simp only [mapLoop, MapRes.ok.injEq] at hml
    subst hml
    exact ⟨hwf, fun k hk => absurd hk (Nat.not_lt_zero k), fun _ _ _ => rfl⟩
  | succ n ih =>
    intro a pa m mF hwf hml
    simp only [mapLoop] at hml
    cases hwalk : walk m root a true with
    | panicked =>
      simp only [hwalk] at hml
      exact MapRes.noConfusion hml
    | null m1 =>
      simp only [hwalk] at hml
      exact MapRes.noConfusion hml
    | ok p idx m1 =>
      simp only [hwalk] at hml
      obtain ⟨hvaA, hidx, hwf1, hres1, ht01, hleaf1⟩ :=
        walk_alloc_spec m root a hwf p idx m1 hwalk
      subst hidx
      by_cases hv : m1.pages p (px 0 a) &&& PTE_V ≠ 0
      · rw [if_pos hv] at hml
        exact MapRes.noConfusion hml
      rw [if_neg hv] at hml
      obtain ⟨hwf2, hres2, hleafSet, hleafKeep⟩ :=
        leaf_write_spec m1 root hwf1 p (px 0 a) ht01 (pa2pte pa ||| perm ||| PTE_V)
      obtain ⟨hwfF, hmapped, hframe⟩ := ih (a + PGSIZE) (pa + PGSIZE) _ mF hwf2 hml
      refine ⟨hwfF, ?_, ?_⟩
      · intro k hk
        cases k with
        | zero =>
          have hdist : ∀ k', k' < n →
              a >>> 12 ≠ (a + PGSIZE + k' * PGSIZE) >>> 12 := by
            intro k' _
            have harith : a + PGSIZE + k' * PGSIZE = a + (k' + 1) * 4096 := by
              show a + 4096 + k' * 4096 = a + (k' + 1) * 4096
              ring
            rw [harith, vpn_add_pages]
            omega
          have h0 : leafPTE mF root a =
              leafPTE (writePTE m1 p (px 0 a) (pa2pte pa ||| perm ||| PTE_V)) root a :=
            hframe a hvaA hdist
          have h1 := hleafSet a hres1
          rw [if_pos (or_pteV_valid (pa2pte pa ||| perm))] at h1
          have hgoal : leafPTE mF root a = some (pa2pte pa ||| perm ||| PTE_V) :=
            h0.trans h1
          simpa using hgoal
        | succ k' =>
          have hk' := hmapped k' (by omega)
          have harith : a + PGSIZE + k' * PGSIZE = a + (k' + 1) * PGSIZE := by
            show a + 4096 + k' * 4096 = a + (k' + 1) * 4096
            ring
          have harith2 : pa + PGSIZE + k' * PGSIZE = pa + (k' + 1) * PGSIZE := by
            show pa + 4096 + k' * 4096 = pa + (k' + 1) * 4096
            ring
          rw [harith, harith2] at hk'
          exact hk'
      · intro va' hva' hdist
        have hd1 : ∀ k, k < n →
            va' >>> 12 ≠ (a + PGSIZE + k * PGSIZE) >>> 12 := by
          intro k hk
          have harith : a + PGSIZE + k * PGSIZE = a + (k + 1) * PGSIZE := by
            show a + 4096 + k * 4096 = a + (k + 1) * 4096
            ring
          rw [harith]
          exact hdist (k + 1) (by omega)
        have h0 := hframe va' hva' hd1
        have hne : resolve m1 root va' ≠ some (p, px 0 a) := by
          intro he
          have hvpn := resolve_inj m1 root hwf1 va' a hva' hvaA p (px 0 a) he hres1
          exact hdist 0 (by omega) hvpn
        have h1 := hleafKeep va' hne
        rw [h0, h1, hleaf1 va']

theorem walk_false_eq (m : Mem) (root va : Nat) (hva : va < MAXVA) :
    walk m root va false =
      match resolve m root va with
      | none => WalkRes.null m
      | some (p, i) => WalkRes.ok p i m := by
  unfold walk
  rw [if_neg (by omega), walkStep_false_eq_child]
  cases hc2 : child m root (px 2 va) with
  | none => simp only [resolve, hc2, Option.map_none']
  | some p1 =>
    simp only [resolve, hc2, Option.map_some']
    rw [walkStep_false_eq_child]
    cases hc1 : child m p1 (px 1 va) with
    | none => simp only [hc1, Option.map_none']
    | some p0 => simp only [hc1, Option.map_some']

theorem walkaddr_eq_leafPTE (m : Mem) (root va : Nat) (hva : va < MAXVA) :
    walkaddr m root va =
      match leafPTE m root va with
      | none => 0
      | some pte => if pte &&& PTE_U = 0 then 0 else pte2pa pte := by
  unfold walkaddr
  rw [if_neg (by omega), walk_false_eq m root va hva]
  cases hres : resolve m root va with
  | none => simp only [hres, leafPTE]
  | some pr =>
    obtain ⟨p, i⟩ := pr
    simp only [hres, leafPTE]
    by_cases hvbit : m.pages p i &&& PTE_V = 0
    · rw [if_pos hvbit, if_neg (fun h => h hvbit)]
    · rw [if_neg hvbit, if_pos hvbit]

/-- C9 as amended: for a successfully mapped page-aligned, page-multiple
range (`mappages` returning 0), with a well-formed table and allocator, a
page-aligned physical base, a permission word that fits the 10 flag bits
and includes `PTE_U` (`walkaddr` looks up user pages only), every page
index `k` in the range round-trips: `walkaddr` returns
`pa + k * PGSIZE`, and the installed leaf entry's flag bits are exactly
`perm` with `PTE_V` added. -/
theorem mappages_walkaddr_roundtrip (m : Mem) (root va size pa perm : Nat) (mF : Mem)
    (hwf : WF m root)
    (hbound : va + size ≤ MAXVA)
    (hpa : pa % PGSIZE = 0)
    (hperm : perm < 1024)
    (hU : perm &&& PTE_U ≠ 0)
    (hmap : mappages m root va size pa perm = .ok mF) :
    ∀ k, k * PGSIZE < size →
      walkaddr mF root (va + k * PGSIZE) = pa + k * PGSIZE ∧
      ∃ pte, leafPTE mF root (va + k * PGSIZE) = some pte ∧
        pte_flags pte = (perm ||| PTE_V) := by
  unfold mappages at hmap
  split_ifs at hmap with h1 h2 h3
  obtain ⟨hwfF, hmapped, _⟩ := mapLoop_spec root perm (size / PGSIZE) va pa m mF hwf hmap
  intro k hk
  have hsz : size % 4096 = 0 := by simpa using h2
  have hk4 : k * 4096 < size := hk
  have hkn : k < size / PGSIZE := by
    show k < size / 4096
    omega
  have hmk := hmapped k hkn
  have hval : va + k * PGSIZE < MAXVA := by
    have hb : va + size ≤ 274877906944 := hbound
    show va + k * 4096 < 274877906944
    omega
  have hpa' : (pa + k * PGSIZE) % PGSIZE = 0 := by
    have h9 : pa % 4096 = 0 := hpa
    show (pa + k * 4096) % 4096 = 0
    omega
  constructor
  · rw [walkaddr_eq_leafPTE mF root _ hval]
    simp only [hmk]
    rw [if_neg (leaf_pte_user (pa + k * PGSIZE) perm hperm hU)]
    exact leaf_pte2pa (pa + k * PGSIZE) perm hperm hpa'
  · exact ⟨_, hmk, leaf_pte_flags (pa + k * PGSIZE) perm hperm⟩

theorem WF_allZero (free : List Nat) (root : Nat) (hnd : free.Nodup)
    (hroot : root ∉ free) : WF ⟨fun _ _ => 0, free⟩ root := by
  have hch : ∀ p i, child ⟨fun _ _ => 0, free⟩ p i = none := by
    intro p i
    unfold child
    simp [PTE_V]
  have hT1 : ∀ q, ¬ isT1 ⟨fun _ _ => 0, free⟩ root q := by
    rintro q ⟨i, _, hc⟩
    rw [hch] at hc
    exact Option.noConfusion hc
  have hT0 : ∀ q, ¬ isT0 ⟨fun _ _ => 0, free⟩ root q := by
    rintro q ⟨p, hp, _⟩
    exact hT1 p hp
  constructor
  · exact hT1 root
  · exact hT0 root
  · intro q h
    exact absurd h (hT1 q)
  · intro i j t _ _ hci _
    rw [hch] at hci
    exact Option.noConfusion hci
  · intro p p' j j' t hp _ _ _ _ _
    exact absurd hp (hT1 p)
  · exact hnd
  · intro q hq
    exact ⟨fun h => hroot (by rw [← h]; exact hq), hT1 q, hT0 q⟩

/-- Counterexample for C9 as stated: mapping one page at `va = 0` to
`pa = 8192` with `perm = PTE_R` (no `PTE_U`) succeeds, yet `walkaddr`
returns 0, not `pa + 0 * PGSIZE = 8192` — `walkaddr` rejects non-user
pages, so the claim needs `perm` to include `PTE_U`. -/
theorem mappages_walkaddr_counterexample :
    mappages memC9 0 0 4096 8192 PTE_R = .ok mF9n ∧
    walkaddr mF9n 0 (0 + 0 * PGSIZE) = 0 ∧
    8192 + 0 * PGSIZE ≠ 0 := by
  refine ⟨rfl, ?_, by decide⟩
  decide

/-- Witness for C9 (amended): the same mapping with
`perm = PTE_R ||| PTE_U = 18` round-trips through `walkaddr`. -/
theorem mappages_walkaddr_roundtrip_witness :
    WF memC9 0 ∧ 0 + 4096 ≤ MAXVA ∧ 8192 % PGSIZE = 0 ∧ 18 < 1024 ∧
    (18 &&& PTE_U ≠ 0) ∧ mappages memC9 0 0 4096 8192 18 = .ok mF9w ∧
    0 * PGSIZE < 4096 ∧
    (walkaddr mF9w 0 (0 + 0 * PGSIZE) = 8192 + 0 * PGSIZE ∧
      ∃ pte, leafPTE mF9w 0 (0 + 0 * PGSIZE) = some pte ∧
        pte_flags pte = (18 ||| PTE_V)) :=
  ⟨WF_allZero [1, 2] 0 (by decide) (by decide), by decide, by decide, by decide,
    by decide, rfl, by decide,
    mappages_walkaddr_roundtrip memC9 0 0 4096 8192 18 mF9w
      (WF_allZero [1, 2] 0 (by decide) (by decide)) (by decide) (by decide)
      (by decide) (by decide) rfl 0 (by decide)⟩

theorem pgrounddown_le (a : Nat) : pgrounddown a ≤ a := by
  show a / 4096 * 4096 ≤ a
  omega

theorem pgrounddown_sub (a : Nat) : a - pgrounddown a = a % 4096 := by
  show a - a / 4096 * 4096 = a % 4096
  omega

theorem pgrounddown_add_in_page (a j : Nat) (h : j < 4096 - a % 4096) :
    pgrounddown (a + j) = pgrounddown a := by
  show (a + j) / 4096 * 4096 = a / 4096 * 4096
  have h2 : a % 4096 + j < 4096 := by
    have := Nat.mod_lt a (y := 4096) (by norm_num)
    omega
  have h3 : (a + j) / 4096 = a / 4096 := by omega
  rw [h3]

theorem userByte_in_page (m : Mem) (root : Nat) (pmem : Nat → Nat) (srcva j : Nat)
    (hne : ¬ walkaddr m root (pgrounddown srcva) = 0)
    (hj : j < 4096 - srcva % 4096) :
    userByte m root pmem (srcva + j) =
      some (pmem (walkaddr m root (pgrounddown srcva) +
        (srcva - pgrounddown srcva) + j)) := by
  unfold userByte
  rw [pgrounddown_add_in_page srcva j hj, if_neg hne]
  have hle := pgrounddown_le srcva
  have harg : walkaddr m root (pgrounddown srcva) + (srcva + j - pgrounddown srcva) =
      walkaddr m root (pgrounddown srcva) + (srcva - pgrounddown srcva) + j := by
    omega
  rw [harg]

theorem range_map_cons {α : Type} (f : Nat → α) (n : Nat) :
    (List.range (n + 1)).map f = f 0 :: (List.range n).map (fun j => f (j + 1)) := by
  rw [List.range_succ_eq_map, List.map_cons, List.map_map]
  rfl

theorem scanPage_spec (pmem : Nat → Nat) :
    ∀ n p,
      (∃ k, k < n ∧ (∀ j, j < k → pmem (p + j) ≠ 0) ∧ pmem (p + k) = 0 ∧
        scanPage pmem p n =
          ((List.range (k + 1)).map (fun j => pmem (p + j)), true, k)) ∨
      ((∀ j, j < n → pmem (p + j) ≠ 0) ∧
        scanPage pmem p n = ((List.range n).map (fun j => pmem (p + j)), false, n)) := by
  intro n
  induction n with
  | zero =>
    intro p
    right
    exact ⟨fun j hj => absurd hj (Nat.not_lt_zero j), by simp [scanPage]⟩
  | succ n ih =>
    intro p
    by_cases hp : pmem p = 0
    · left
      refine ⟨0, Nat.succ_pos n, fun j hj => absurd hj (Nat.not_lt_zero j),
        by simpa using hp, ?_⟩
      rw [show List.range 1 = [0] from rfl]
      simp [scanPage, hp]
    · rcases ih (p + 1) with ⟨k, hk, hpre, hnul, heq⟩ | ⟨hpre, heq⟩
      · left
        refine ⟨k + 1, by omega, ?_, ?_, ?_⟩
        · intro j hj
          cases j with
          | zero => simpa using hp
          | succ j' =>
            have hj' := hpre j' (by omega)
            rw [show p + (j' + 1) = p + 1 + j' by ring]
            exact hj'
        · rw [show p + (k + 1) = p + 1 + k by ring]
          exact hnul
        · simp only [scanPage, if_neg hp, heq]
          rw [range_map_cons (fun j => pmem (p + j)) (k + 1)]
          have hfun : (fun j => pmem (p + (j + 1))) = (fun j => pmem (p + 1 + j)) :=
            funext fun j => by rw [show p + (j + 1) = p + 1 + j by ring]
          rw [hfun]
          simp
      · right
        constructor
        · intro j hj
          cases j with
          | zero => simpa using hp
          | succ j' =>
            have hj' := hpre j' (by omega)
            rw [show p + (j' + 1) = p + 1 + j' by ring]
            exact hj'
        · simp only [scanPage, if_neg hp, heq]
          rw [range_map_cons (fun j => pmem (p + j)) n]
          have hfun : (fun j => pmem (p + (j + 1))) = (fun j => pmem (p + 1 + j)) :=
            funext fun j => by rw [show p + (j + 1) = p + 1 + j by ring]
          rw [hfun]
          simp

theorem ciGo_mx_zero (m : Mem) (root : Nat) (pmem : Nat → Nat) :
    ∀ fuel srcva, ciGo m root pmem fuel srcva 0 = none := by
  intro fuel srcva
  cases fuel with
  | zero => rfl
  | succ f => simp [ciGo]

theorem map_range_split (F G H : Nat → Nat) (n c : Nat)
    (h1 : ∀ j, j < n → H j = F j)
    (h2 : ∀ j, j < c → G j = F (n + j)) :
    (List.range (n + c)).map F = (List.range n).map H ++ (List.range c).map G := by
  rw [List.range_add, List.map_append, List.map_map]
  congr 1
  · exact List.map_congr_left fun j hj => (h1 j (List.mem_range.mp hj)).symm
  · exact List.map_congr_left fun j hj => (h2 j (List.mem_range.mp hj)).symm

theorem ciGo_iff (m : Mem) (root : Nat) (pmem : Nat → Nat) :
    ∀ fuel mx srcva bs, mx ≤ fuel →
      (ciGo m root pmem fuel srcva mx = some bs ↔ ciSpec m root pmem srcva mx bs) := by
  intro fuel
  induction fuel with
  | zero =>
    intro mx srcva bs hmx
    have h0 : mx = 0 := by omega
    subst h0
    constructor
    · intro h
      exact absurd h (by simp [ciGo])
    · rintro ⟨k, hk, _⟩
      exact absurd hk (Nat.not_lt_zero k)
  | succ fuel ih =>
    intro mx srcva bs hmx
    by_cases hmx0 : mx = 0
    · subst hmx0
      constructor
      · intro h
        rw [ciGo_mx_zero] at h
        exact Option.noConfusion h
      · rintro ⟨k, hk, _⟩
        exact absurd hk (Nat.not_lt_zero k)
    by_cases hpa : walkaddr m root (pgrounddown srcva) = 0
    · constructor
      · intro h
        simp only [ciGo, if_neg hmx0, if_pos hpa] at h
        exact Option.noConfusion h
      · rintro ⟨k, hk, hpre, hnul, _⟩
        exfalso
        cases k with
        | zero =>
          rw [Nat.add_zero] at hnul
          unfold userByte at hnul
          rw [if_pos hpa] at hnul
          exact Option.noConfusion hnul
        | succ k' =>
          obtain ⟨b, hb, _⟩ := hpre 0 (Nat.succ_pos k')
          rw [Nat.add_zero] at hb
          unfold userByte at hb
          rw [if_pos hpa] at hb
          exact Option.noConfusion hb
    · have hoff := pgrounddown_sub srcva
      have hofflt : srcva % 4096 < 4096 := Nat.mod_lt _ (by norm_num)
      have hbyte : ∀ j, j < 4096 - srcva % 4096 →
          userByte m root pmem (srcva + j) =
            some (pmem (walkaddr m root (pgrounddown srcva) +
              (srcva - pgrounddown srcva) + j)) :=
        fun j hj => userByte_in_page m root pmem srcva j hpa hj
      rcases scanPage_spec pmem
          (min (PGSIZE - (srcva - pgrounddown srcva)) mx)
          (walkaddr m root (pgrounddown srcva) + (srcva - pgrounddown srcva)) with
        ⟨k, hk, hpre, hnul, heq⟩ | ⟨hpre, heq⟩
      · have hkmin := Nat.lt_min.mp hk
        have hkpage : k < 4096 - srcva % 4096 := by
          have h4 : k < 4096 - (srcva - pgrounddown srcva) := hkmin.1
          rw [hoff] at h4
          exact h4
        have hkmx : k < mx := hkmin.2
        have hLHS : ciGo m root pmem (fuel + 1) srcva mx =
            some ((List.range (k + 1)).map (fun j =>
              pmem (walkaddr m root (pgrounddown srcva) +
                (srcva - pgrounddown srcva) + j))) := by
          simp only [ciGo, if_neg hmx0, if_neg hpa, heq]
          rw [if_pos trivial]
        have hmapeq : (List.range (k + 1)).map (fun j =>
              pmem (walkaddr m root (pgrounddown srcva) +
                (srcva - pgrounddown srcva) + j)) =
            (List.range (k + 1)).map (fun j =>
              (userByte m root pmem (srcva + j)).getD 0) := by
          refine List.map_congr_left ?_
          intro j hj
          have hjr : j < k + 1 := List.mem_range.mp hj
          rw [hbyte j (by omega)]
          rfl
        constructor
        · intro h
          rw [hLHS] at h
          injection h with h
          refine ⟨k, hkmx, ?_, ?_, ?_⟩
          · intro j hj
            exact ⟨_, hbyte j (by omega), hpre j (by omega)⟩
          · rw [hbyte k hkpage, hnul]
          · rw [← h]
            exact hmapeq
        · rintro ⟨k', hk', hpre', hnul', hbs⟩
          have hkk : k' = k := by
            by_cases hlt : k' < k
            · exfalso
              have h1 := hpre k' (by omega)
              have h2 := hnul'
              rw [hbyte k' (by omega)] at h2
              injection h2 with h2
              exact h1 h2
            · by_cases hgt : k < k'
              · exfalso
                obtain ⟨b, hb, hbne⟩ := hpre' k hgt
                rw [hbyte k hkpage] at hb
                injection hb with hb
                rw [hb] at hnul
                exact hbne hnul
              · omega
          subst hkk
          rw [hLHS, hbs, hmapeq]
      · set n := min (PGSIZE - (srcva - pgrounddown srcva)) mx with hn
        have hA : PGSIZE - (srcva - pgrounddown srcva) = 4096 - srcva % 4096 := by
          show 4096 - (srcva - pgrounddown srcva) = 4096 - srcva % 4096
          rw [hoff]
        have hn1 : 1 ≤ n := by
          rw [hn, hA]
          exact le_min (by omega) (by omega)
        have hnpage : n ≤ 4096 - srcva % 4096 := by
          rw [hn, hA]
          exact min_le_left _ _
        have hnmx : n ≤ mx := by
          rw [hn]
          exact min_le_right _ _
        by_cases hcase : mx ≤ 4096 - srcva % 4096
        · have hnmx' : n = mx := by
            rw [hn, hA]
            exact Nat.min_eq_right hcase
          have hLHS : ciGo m root pmem (fuel + 1) srcva mx = none := by
            simp only [ciGo, if_neg hmx0, if_neg hpa]
            rw [← hn]
            simp only [heq]
            rw [hnmx', Nat.sub_self, ciGo_mx_zero]
            simp
          rw [hLHS]
          constructor
          · intro h
            exact Option.noConfusion h
          · rintro ⟨k, hk, hpre', hnul', _⟩
            exfalso
            have hkn : k < n := by omega
            have h1 := hpre k hkn
            rw [hbyte k (by omega)] at hnul'
            injection hnul' with h0
            exact h1 h0
        · push_neg at hcase
          have hneq : n = 4096 - srcva % 4096 := by
            rw [hn, hA]
            exact Nat.min_eq_left (by omega)
          have hsrcva' : pgrounddown srcva + PGSIZE = srcva + n := by
            have hle := pgrounddown_le srcva
            have hsub := pgrounddown_sub srcva
            show pgrounddown srcva + 4096 = srcva + n
            omega
          have hfuel' : mx - n ≤ fuel := by omega
          have hHF : ∀ j, j < n →
              pmem (walkaddr m root (pgrounddown srcva) +
                (srcva - pgrounddown srcva) + j) =
              (userByte m root pmem (srcva + j)).getD 0 := by
            intro j hj
            rw [hbyte j (by omega)]
            rfl
          have hGF : ∀ j,
              (userByte m root pmem ((pgrounddown srcva + PGSIZE) + j)).getD 0 =
              (userByte m root pmem (srcva + (n + j))).getD 0 := by
            intro j
            rw [hsrcva', show srcva + n + j = srcva + (n + j) by ring]
          have hLHSeq : ∀ bs', ciGo m root pmem (fuel + 1) srcva mx = some bs' ↔
              ∃ rest, ciGo m root pmem fuel (pgrounddown srcva + PGSIZE) (mx - n) =
                  some rest ∧
                bs' = (List.range n).map (fun j =>
                  pmem (walkaddr m root (pgrounddown srcva) +
                    (srcva - pgrounddown srcva) + j)) ++ rest := by
            intro bs'
            simp only [ciGo, if_neg hmx0, if_neg hpa]
            rw [← hn]
            simp only [heq]
            rw [if_neg (fun hff => Bool.noConfusion hff)]
            cases hrec : ciGo m root pmem fuel (pgrounddown srcva + PGSIZE) (mx - n) with
            | none => simp
            | some rest0 =>
              simp only [Option.some.injEq]
              constructor
              · intro h
                exact ⟨rest0, rfl, h.symm⟩
              · rintro ⟨rest, hr, hb⟩
                rw [hb, hr]
          constructor
          · intro h
            obtain ⟨rest, hrec, hbs⟩ := (hLHSeq bs).mp h
            obtain ⟨k', hk', hpre', hnul', hrest⟩ :=
              (ih (mx - n) (pgrounddown srcva + PGSIZE) rest hfuel').mp hrec
            refine ⟨n + k', by omega, ?_, ?_, ?_⟩
            · intro j hj
              by_cases hjn : j < n
              · exact ⟨_, hbyte j (by omega), hpre j hjn⟩
              · have hj' : j - n < k' := by omega
                obtain ⟨b, hb, hbne⟩ := hpre' (j - n) hj'
                refine ⟨b, ?_, hbne⟩
                rw [hsrcva', show srcva + n + (j - n) = srcva + j by omega] at hb
                exact hb
            · have h9 := hnul'
              rw [hsrcva', show srcva + n + k' = srcva + (n + k') by ring] at h9
              exact h9
            · rw [hbs, hrest, show n + k' + 1 = n + (k' + 1) by ring]
              exact (map_range_split
                (fun j => (userByte m root pmem (srcva + j)).getD 0)
                (fun j => (userByte m root pmem
                  ((pgrounddown srcva + PGSIZE) + j)).getD 0)
                (fun j => pmem (walkaddr m root (pgrounddown srcva) +
                  (srcva - pgrounddown srcva) + j)) n (k' + 1)
                (fun j hj => hHF j hj) (fun j _ => hGF j)).symm
          · rintro ⟨k, hk, hpre', hnul', hbs⟩
            have hkn : n ≤ k := by
              by_contra hlt
              push_neg at hlt
              have h1 := hpre k hlt
              rw [hbyte k (by omega)] at hnul'
              injection hnul' with h0
              exact h1 h0
            have hrest : ciSpec m root pmem (pgrounddown srcva + PGSIZE) (mx - n)
                ((List.range (k - n + 1)).map (fun j =>
                  (userByte m root pmem ((pgrounddown srcva + PGSIZE) + j)).getD 0)) := by
              refine ⟨k - n, by omega, ?_, ?_, rfl⟩
              · intro j hj
                obtain ⟨b, hb, hbne⟩ := hpre' (n + j) (by omega)
                refine ⟨b, ?_, hbne⟩
                rw [hsrcva', show srcva + n + j = srcva + (n + j) by ring]
                exact hb
              · rw [hsrcva', show srcva + n + (k - n) = srcva + k by omega]
                exact hnul'
            have hrec := (ih (mx - n) (pgrounddown srcva + PGSIZE) _ hfuel').mpr hrest
            refine (hLHSeq bs).mpr ⟨_, hrec, ?_⟩
            rw [hbs, show k + 1 = n + (k - n + 1) by omega]
            exact map_range_split
              (fun j => (userByte m root pmem (srcva + j)).getD 0)
              (fun j => (userByte m root pmem
                ((pgrounddown srcva + PGSIZE) + j)).getD 0)
              (fun j => pmem (walkaddr m root (pgrounddown srcva) +
                (srcva - pgrounddown srcva) + j)) n (k - n + 1)
              (fun j hj => hHF j hj) (fun j _ => hGF j)

/-- C10: `copyinstr` returns 0 (with the destination receiving exactly
the bytes up to and including the NUL) precisely when a NUL occurs
within the first `max` bytes of the user string and every byte up to it
lies on a page that `walkaddr` translates (mapped, valid and
user-accessible); in every other case — `max` exhausted without a NUL,
or an unmapped/non-user page reached — it returns -1 (`none`).  The
embedding is a total function whose only outcomes are `some` (return 0)
and `none` (return -1): there is no panic. -/
theorem copyinstr_ok_iff (m : Mem) (root : Nat) (pmem : Nat → Nat)
    (srcva mx : Nat) (bs : List Nat) :
    copyinstr m root pmem srcva mx = some bs ↔ ciSpec m root pmem srcva mx bs :=
  ciGo_iff m root pmem mx mx srcva bs (le_refl mx)

end RustOS
